import Mathlib

/-!
Verification of the Qwen3 function-calling parser
(examples/server/parsers/qwen3_parser.hpp).

The C++ source is shallowly embedded here.  Text is modelled as a list of
characters; std::string::find / rfind / substr become explicit cursor
arithmetic over lists; the scanning loops become fuel-indexed structural
recursions (the fuel supplied at each top-level entry point is large enough
that it can never be exhausted, which is proved where a claim needs it).
The process-wide static id counter of the universal XML extractor is made
an explicit piece of state, threaded in and out of the functions that use
it.  The nlohmann json library (json.hpp) and string_strip (common.h) are
not part of the source tree under verification, so they are modelled from
the specification; every such definition carries a doc comment starting
with "Modelled from the spec:".
-/

namespace Qwen3

/-- Text is a list of characters (the embedding of std::string). -/
abbrev Txt := List Char

/-- Coerce a Lean string literal to the character-list representation. -/
def txt (s : String) : Txt := s.data

/-- Whitespace class of the default C locale isspace (used by
string_strip and by the ECMAScript regex class for whitespace on plain
char strings): space, TAB, LF, VT, FF, CR. -/
def isWs6 (c : Char) : Bool :=
  c = ' ' || c = '\t' || c = '\n' || c = Char.ofNat 11 || c = Char.ofNat 12 || c = '\r'

/-- The four-character whitespace set " \t\n\r" used by the explicit
erase/find_first_not_of trimming in the parser source. -/
def isWs4 (c : Char) : Bool :=
  c = ' ' || c = '\t' || c = '\n' || c = '\r'

/-- JSON insignificant whitespace (space, TAB, LF, CR), as skipped by the
json lexer. -/
def isJsonWs (c : Char) : Bool :=
  c = ' ' || c = '\t' || c = '\n' || c = '\r'

/-- Trim with an arbitrary whitespace class on both ends, the semantics of
erase(0, find_first_not_of(ws)) followed by erase(find_last_not_of(ws)+1):
drop maximal whitespace prefix and suffix. -/
def trimBy (p : Char → Bool) (s : Txt) : Txt :=
  ((s.dropWhile p).reverse.dropWhile p).reverse

/-- Modelled from the spec: string_strip from common/common.h (not part of
the verified source tree).  The spec says only leading and trailing
whitespace is trimmed and internal formatting is preserved. -/
def string_strip (s : Txt) : Txt := trimBy isWs6 s

/-- std::string::find(needle, i) scanning helper: try indices i, i+1, ...
while they stay in range; fuel bounds the recursion and is chosen so that
the whole range [i, length] is covered. -/
def findFromAux (t n : Txt) : Nat → Nat → Option Nat
  | 0, _ => none
  | fuel+1, i =>
    if n.isPrefixOf (t.drop i) then some i
    else if i < t.length then findFromAux t n fuel (i+1)
    else none

/-- std::string::find(needle, s): smallest index i with s ≤ i at which
needle occurs in t, or none (npos). -/
def findFrom (t n : Txt) (s : Nat) : Option Nat :=
  findFromAux t n (t.length + 1 - s) s

/-- std::string::rfind(needle) scanning helper: try indices i, i-1, ..., 0. -/
def rfindAux (t n : Txt) : Nat → Option Nat
  | 0 => if n.isPrefixOf t then some 0 else none
  | i+1 => if n.isPrefixOf (t.drop (i+1)) then some (i+1) else rfindAux t n i

/-- std::string::rfind(needle): largest index at which needle occurs. -/
def rfind (t n : Txt) : Option Nat := rfindAux t n t.length

/-- std::string::substr(pos, count) where the count was computed by
size_t subtraction: a negative Int count models size_t underflow, which
produces a huge count that substr clamps to the rest of the string. -/
def cppSubstr (s : Txt) (pos : Nat) (count : Int) : Txt :=
  if count < 0 then s.drop pos else (s.drop pos).take count.toNat

/-- Index of the first non-whitespace character at or after j (the
greedy backslash-s-star of the regexes: it must consume exactly the
maximal whitespace run, because the character required next is never
itself whitespace). -/
def skipWs6 (t : Txt) (j : Nat) : Nat := j + ((t.drop j).takeWhile isWs6).length

/-- The literal tag "<tool_call>". -/
def openTag : Txt := txt ("<tool_call>")

/-- The literal tag "</tool_call>". -/
def closeTag : Txt := txt ("</tool_call>")

/-- The literal marker "<function=". -/
def funcTag : Txt := txt ("<function=")

/-- The literal tag "</function>". -/
def closeFunc : Txt := txt ("</function>")

/-- The literal marker "<parameter=". -/
def paramTag : Txt := txt ("<parameter=")

/-- The literal tag "</parameter>". -/
def closeParam : Txt := txt ("</parameter>")

/-- The literal one-character string ">". -/
def gtTag : Txt := txt (">")

/-- The embedding of the emitted tool-call object
json-object-with-id-type-function: its four string components. -/
structure ToolCall where
  id : Txt
  ttype : Txt
  fname : Txt
  args : Txt
deriving DecidableEq, Repr

/-! ## The JSON value model

Modelled from the spec: the parser source uses nlohmann::ordered_json
(json.hpp), which is not part of the verified source tree.  The spec
describes the payload as a JSON document; values are modelled by a
mutual inductive family.  Numbers keep their source lexeme (the spec
never depends on numeric normalisation), objects keep their members in
textual order, and duplicate keys are resolved by last-wins lookup. -/

mutual
/-- Modelled from the spec: a JSON value (json.hpp is outside the source
tree).  Numbers are kept as their validated lexeme. -/
inductive JVal : Type where
  | jnull : JVal
  | jbool : Bool → JVal
  | jnum : Txt → JVal
  | jstr : Txt → JVal
  | jarr : JArr → JVal
  | jobj : JObj → JVal
/-- Modelled from the spec: a JSON array (sequence of values). -/
inductive JArr : Type where
  | anil : JArr
  | acons : JVal → JArr → JArr
/-- Modelled from the spec: the member list of a JSON object, in textual
order. -/
inductive JObj : Type where
  | onil : JObj
  | ocons : Txt → JVal → JObj → JObj
end

/-- Hex digit character for values 0..15 (lowercase, as in json.hpp dump). -/
def hexDig (n : Nat) : Char := if n < 10 then Char.ofNat (48 + n) else Char.ofNat (87 + n)

/-- Is the character an ASCII hex digit. -/
def isHexD (c : Char) : Bool := c.isDigit || ('a' ≤ c && c ≤ 'f') || ('A' ≤ c && c ≤ 'F')

/-- Numeric value of a hex digit character. -/
def hexV (c : Char) : Nat :=
  if c.isDigit then c.toNat - 48
  else if 'a' ≤ c && c ≤ 'f' then c.toNat - 87
  else c.toNat - 55

/-- Modelled from the spec: the escaping a JSON serializer applies to one
string character so that the output is valid JSON text: quote and
backslash are escaped, control characters below 0x20 get their short
escapes or a four-digit hex escape, everything else passes through. -/
def escChar (c : Char) : Txt :=
  if c = '"' then ['\\', '"']
  else if c = '\\' then ['\\', '\\']
  else if c = Char.ofNat 8 then ['\\', 'b']
  else if c = Char.ofNat 9 then ['\\', 't']
  else if c = Char.ofNat 10 then ['\\', 'n']
  else if c = Char.ofNat 12 then ['\\', 'f']
  else if c = Char.ofNat 13 then ['\\', 'r']
  else if c.toNat < 32 then
    ['\\', 'u', '0', '0', hexDig (c.toNat / 16), hexDig (c.toNat % 16)]
  else [c]

/-- Escape every character of a string body. -/
def escStr : Txt → Txt
  | [] => []
  | c :: r => escChar c ++ escStr r

/-- Serialize a string with its quotes. -/
def dumpStr (s : Txt) : Txt := '"' :: escStr s ++ ['"']

mutual
/-- Modelled from the spec: compact JSON serialization (the dump() of
json.hpp): no added whitespace, members and elements comma-separated. -/
def dumpVal : JVal → Txt
  | .jnull => txt ("null")
  | .jbool true => txt ("true")
  | .jbool false => txt ("false")
  | .jnum l => l
  | .jstr s => dumpStr s
  | .jarr xs => '[' :: dumpArr xs ++ [']']
  | .jobj kvs => '{' :: dumpObj kvs ++ ['}']
/-- Serialize array elements, comma separated. -/
def dumpArr : JArr → Txt
  | .anil => []
  | .acons v .anil => dumpVal v
  | .acons v tl => dumpVal v ++ ',' :: dumpArr tl
/-- Serialize object members, comma separated. -/
def dumpObj : JObj → Txt
  | .onil => []
  | .ocons k v .onil => dumpStr k ++ ':' :: dumpVal v
  | .ocons k v tl => dumpStr k ++ ':' :: dumpVal v ++ ',' :: dumpObj tl
end

/-- Drop leading JSON whitespace. -/
def skipJWs (s : Txt) : Txt := s.dropWhile isJsonWs

/-- Characters a number lexeme may consist of; the lexer takes the
maximal run of them and then validates it against the JSON number
grammar. -/
def isNumChar (c : Char) : Bool :=
  c.isDigit || c = '-' || c = '+' || c = '.' || c = 'e' || c = 'E'

/-- Drop one optional leading minus sign. -/
def chompMinus (s : Txt) : Txt :=
  match s with
  | [] => []
  | c :: r => if c = '-' then r else c :: r

/-- Integer part of the JSON number grammar: a single 0, or a nonzero
digit followed by digits. -/
def numInt (s : Txt) : Option Txt :=
  match s with
  | [] => none
  | c :: r =>
    if c = '0' then some r
    else if c.isDigit then some (r.dropWhile Char.isDigit) else none

/-- At least one digit, then the maximal digit run. -/
def digits1 (s : Txt) : Option Txt :=
  match s with
  | [] => none
  | c :: r => if c.isDigit then some (r.dropWhile Char.isDigit) else none

/-- Optional fraction part: dot followed by at least one digit. -/
def numFrac (s : Txt) : Option Txt :=
  match s with
  | [] => some []
  | c :: r => if c = '.' then digits1 r else some (c :: r)

/-- Optional exponent part: e or E, optional sign, at least one digit. -/
def numExp (s : Txt) : Option Txt :=
  match s with
  | [] => some []
  | c :: r =>
    if c = 'e' || c = 'E' then
      match r with
      | [] => none
      | d :: r2 => if d = '+' || d = '-' then digits1 r2 else digits1 r
    else some (c :: r)

/-- Does the whole lexeme match the JSON number grammar. -/
def validNum (s : Txt) : Bool :=
  match numInt (chompMinus s) with
  | none => false
  | some s2 =>
    match numFrac s2 with
    | none => false
    | some s3 =>
      match numExp s3 with
      | none => false
      | some s4 => s4.isEmpty

/-- Prepend a character to the string being accumulated by the string
body parser. -/
def mapCons (c : Char) : Option (Txt × Txt) → Option (Txt × Txt)
  | some (cs, r) => some (c :: cs, r)
  | none => none

/-- Modelled from the spec: parse a JSON string body up to its closing
quote, decoding escapes; unescaped control characters are rejected. -/
def parseStrBody : Txt → Option (Txt × Txt)
  | [] => none
  | c :: r =>
    if c = '"' then some ([], r)
    else if c = '\\' then
      match r with
      | [] => none
      | d :: r2 =>
        if d = '"' then mapCons '"' (parseStrBody r2)
        else if d = '\\' then mapCons '\\' (parseStrBody r2)
        else if d = '/' then mapCons '/' (parseStrBody r2)
        else if d = 'b' then mapCons (Char.ofNat 8) (parseStrBody r2)
        else if d = 'f' then mapCons (Char.ofNat 12) (parseStrBody r2)
        else if d = 'n' then mapCons (Char.ofNat 10) (parseStrBody r2)
        else if d = 'r' then mapCons (Char.ofNat 13) (parseStrBody r2)
        else if d = 't' then mapCons (Char.ofNat 9) (parseStrBody r2)
        else if d = 'u' then
          match r2 with
          | a :: b :: c2 :: d2 :: r3 =>
            if isHexD a && isHexD b && isHexD c2 && isHexD d2 then
              mapCons (Char.ofNat (hexV a * 4096 + hexV b * 256 + hexV c2 * 16 + hexV d2))
                (parseStrBody r3)
            else none
          | _ => none
        else none
    else if c.toNat < 32 then none
    else mapCons c (parseStrBody r)

/-- Lex a number: take the maximal run of number characters and validate
it as a JSON number lexeme. -/
def parseNum (s : Txt) : Option (JVal × Txt) :=
  if validNum (s.takeWhile isNumChar) then
    some (.jnum (s.takeWhile isNumChar), s.dropWhile isNumChar)
  else none

mutual
/-- Modelled from the spec: recursive-descent parse of one JSON value.
The fuel argument only bounds the recursion; callers supply enough for
any input of the given length. -/
def parseVal : Nat → Txt → Option (JVal × Txt)
  | 0, _ => none
  | f+1, s =>
    match skipJWs s with
    | [] => none
    | c :: r =>
      if c = 'n' then
        match r with
        | 'u' :: 'l' :: 'l' :: r2 => some (.jnull, r2)
        | _ => none
      else if c = 't' then
        match r with
        | 'r' :: 'u' :: 'e' :: r2 => some (.jbool true, r2)
        | _ => none
      else if c = 'f' then
        match r with
        | 'a' :: 'l' :: 's' :: 'e' :: r2 => some (.jbool false, r2)
        | _ => none
      else if c = '"' then
        match parseStrBody r with
        | some (cs, r2) => some (.jstr cs, r2)
        | none => none
      else if c = '[' then
        match skipJWs r with
        | [] => none
        | c2 :: r2 =>
          if c2 = ']' then some (.jarr .anil, r2)
          else
            match parseElems f (c2 :: r2) with
            | some (xs, r3) => some (.jarr xs, r3)
            | none => none
      else if c = '{' then
        match skipJWs r with
        | [] => none
        | c2 :: r2 =>
          if c2 = '}' then some (.jobj .onil, r2)
          else
            match parseMembers f (c2 :: r2) with
            | some (kvs, r3) => some (.jobj kvs, r3)
            | none => none
      else if c = '-' || c.isDigit then parseNum (c :: r)
      else none
/-- Parse the elements of a non-empty array, consuming the closing
bracket. -/
def parseElems : Nat → Txt → Option (JArr × Txt)
  | 0, _ => none
  | f+1, s =>
    match parseVal f s with
    | none => none
    | some (v, r) =>
      match skipJWs r with
      | [] => none
      | c :: r2 =>
        if c = ',' then
          match parseElems f (skipJWs r2) with
          | some (xs, r3) => some (.acons v xs, r3)
          | none => none
        else if c = ']' then some (.acons v .anil, r2)
        else none
/-- Parse the members of a non-empty object, consuming the closing
brace. -/
def parseMembers : Nat → Txt → Option (JObj × Txt)
  | 0, _ => none
  | f+1, s =>
    match s with
    | [] => none
    | c0 :: r =>
      if c0 = '"' then
        match parseStrBody r with
        | none => none
        | some (k, r1) =>
          match skipJWs r1 with
          | [] => none
          | c1 :: r2 =>
            if c1 = ':' then
              match parseVal f (skipJWs r2) with
              | none => none
              | some (v, r3) =>
                match skipJWs r3 with
                | [] => none
                | c3 :: r4 =>
                  if c3 = ',' then
                    match parseMembers f (skipJWs r4) with
                    | some (kvs, r5) => some (.ocons k v kvs, r5)
                    | none => none
                  else if c3 = '}' then some (.ocons k v .onil, r4)
                  else none
            else none
      else none
end

/-- Modelled from the spec: json::parse of a complete document — one
value, with only whitespace allowed after it. -/
def parseJson (s : Txt) : Option JVal :=
  match parseVal (s.length + 1) s with
  | some (v, r) => if skipJWs r = [] then some v else none
  | none => none

/-- Modelled from the spec: look a key up in an object member list; the
last binding of a duplicated key wins, matching the assignment semantics
the json library uses while building parsed objects. -/
def olookup : JObj → Txt → Option JVal
  | .onil, _ => none
  | .ocons k v tl, key =>
    match olookup tl key with
    | some w => some w
    | none => if k = key then some v else none

/-- Modelled from the spec: contains(key) followed by operator[](key) on a
parsed value: only objects contain keys. -/
def objLookup (v : JVal) (key : Txt) : Option JVal :=
  match v with
  | .jobj kvs => olookup kvs key
  | _ => none

/-- The JSON key "name". -/
def nameKey : Txt := txt ("name")

/-- The JSON key "arguments". -/
def argsKey : Txt := txt ("arguments")

/-- The id string "qwen3_call_" + std::to_string(n). -/
def qwenId (n : Nat) : Txt := txt ("qwen3_call_") ++ (Nat.repr n).data

/-- The id string "call_universal_" + std::to_string(n). -/
def univId (n : Nat) : Txt := txt ("call_universal_") ++ (Nat.repr n).data

/-- Build the emitted tool-call object of the JSON extractor. -/
def mkQwenCall (nm args : Txt) (n : Nat) : ToolCall :=
  ⟨qwenId n, txt ("function"), nm, args⟩

/-- Build the emitted tool-call object of the universal XML extractor. -/
def mkUnivCall (nm args : Txt) (n : Nat) : ToolCall :=
  ⟨univId n, txt ("function"), nm, args⟩

/-! ## The JSON tool-call extractor (parse_tool_calls)

The C++ code iterates the ECMAScript regex
  <tool_call>\s*(\{[\s\S]*?\})\s*</tool_call>
over the text.  A match at position p requires the literal open tag at p,
then (greedy, but the next required character is never whitespace) the
maximal whitespace run, then an open brace at q.  The lazy capture ends at
the least e ≥ q holding a close brace that is followed by optional
whitespace and the literal close tag; lazy repetition backtracks (extends)
until the rest of the pattern matches.  The ECMAScript leftmost rule picks
the smallest starting position p. -/

/-- Scan k = start, start+1, ... for the least index holding a close brace
followed (after whitespace) by the close tag — the end of the lazy
capture. -/
def braceScan (t : Txt) : Nat → Nat → Option Nat
  | 0, _ => none
  | fuel+1, k =>
    if k < t.length then
      if (t[k]? == some '}') && closeTag.isPrefixOf (t.drop (skipWs6 t (k+1))) then some k
      else braceScan t fuel (k+1)
    else none

/-- Attempt the anchored regex match at position p; on success return the
capture bounds (q, e) (both inclusive). -/
def jsonMatchAt (t : Txt) (p : Nat) : Option (Nat × Nat) :=
  if openTag.isPrefixOf (t.drop p) then
    if t[skipWs6 t (p + 11)]? = some '{' then
      match braceScan t (t.length + 1 - skipWs6 t (p + 11)) (skipWs6 t (p + 11)) with
      | some e => some (skipWs6 t (p + 11), e)
      | none => none
    else none
  else none

/-- Scan p = start, start+1, ... for the leftmost regex match. -/
def jsonScanP (t : Txt) : Nat → Nat → Option (Nat × Nat × Nat)
  | 0, _ => none
  | fuel+1, p =>
    match jsonMatchAt t p with
    | some (q, e) => some (p, q, e)
    | none => if p < t.length then jsonScanP t fuel (p+1) else none

/-- The leftmost regex match at or after position s: (match start p,
capture start q, capture end e). -/
def nextJsonMatch (t : Txt) (s : Nat) : Option (Nat × Nat × Nat) :=
  jsonScanP t (t.length + 1 - s) s

/-- The capture group text: characters q..e of t, inclusive. -/
def captureOf (t : Txt) (q e : Nat) : Txt := (t.drop q).take (e - q + 1)

/-- Validate one captured candidate: parse it as JSON, require an object
with a non-empty string "name"; take "arguments" verbatim when it is a
string, re-serialize it when it is any other value, and default it to the
two-character text of an empty object when absent. -/
def jsonCandidate (s : Txt) : Option (Txt × Txt) :=
  match parseJson s with
  | none => none
  | some v =>
    match objLookup v nameKey with
    | some (.jstr nm) =>
      if nm = [] then none
      else
        some (nm,
          match objLookup v argsKey with
          | some (.jstr a) => a
          | some w => dumpVal w
          | none => ['{', '}'])
    | _ => none

/-- The regex-iterator loop of parse_tool_calls: after each match resume
at its end; the candidate counter advances only when a candidate is
accepted. -/
def jsonLoop (t : Txt) : Nat → Nat → Nat → List ToolCall
  | 0, _, _ => []
  | fuel+1, pos, ctr =>
    match nextJsonMatch t pos with
    | none => []
    | some (_, q, e) =>
      let mEnd := skipWs6 t (e+1) + 12
      match jsonCandidate (trimBy isWs4 (captureOf t q e)) with
      | some (nm, args) => mkQwenCall nm args (ctr+1) :: jsonLoop t fuel mEnd (ctr+1)
      | none => jsonLoop t fuel mEnd ctr

/-- The JSON-style pass of parse_tool_calls on a whole text. -/
def jsonPhase (t : Txt) : List ToolCall := jsonLoop t (t.length + 1) 0 0

/-! ## The universal XML-style extractor (parse_universal_xml_tool_calls) -/

/-- nlohmann operator[] assignment while collecting parameters: an
existing key keeps its position and gets the new value, a new key is
appended. -/
def insertKV : List (Txt × Txt) → Txt → Txt → List (Txt × Txt)
  | [], k, v => [(k, v)]
  | (k0, v0) :: tl, k, v =>
    if k0 = k then (k0, v) :: tl else (k0, v0) :: insertKV tl k v

/-- View the collected parameter association list as a JSON object whose
values are strings. -/
def toJObj : List (Txt × Txt) → JObj
  | [] => .onil
  | (k, v) :: tl => .ocons k (.jstr v) (toJObj tl)

/-- The inner parameter-collection loop: scan for parameter markers; a
missing closing angle bracket or a missing closing parameter tag stops
collection, keeping what was collected so far.  Values are trimmed with
the four-character whitespace set. -/
def paramLoop (params : Txt) : Nat → Nat → List (Txt × Txt) → List (Txt × Txt)
  | 0, _, acc => acc
  | fuel+1, ppos, acc =>
    match findFrom params paramTag ppos with
    | none => acc
    | some pp =>
      let pns := pp + 11
      match findFrom params gtTag pns with
      | none => acc
      | some pne =>
        let pname := cppSubstr params pns ((pne : Int) - pns)
        match findFrom params closeParam (pne + 1) with
        | none => acc
        | some pve =>
          let pval := trimBy isWs4 (cppSubstr params (pne + 1) ((pve : Int) - (pne + 1)))
          paramLoop params fuel (pve + 12) (insertKV acc pname pval)

/-- Decode one tool-call region body: require a function marker with a
non-empty name terminated by an angle bracket, and a closing function tag
(searched from the start of the region, as in the source); then collect
the parameters of the section between them. -/
def regionCall (inner : Txt) : Option (Txt × List (Txt × Txt)) :=
  match findFrom inner funcTag 0 with
  | none => none
  | some fs =>
    let ns := fs + 10
    match findFrom inner gtTag ns with
    | none => none
    | some ne =>
      let name := cppSubstr inner ns ((ne : Int) - ns)
      if name = [] then none
      else
        match findFrom inner closeFunc 0 with
        | none => none
        | some fe =>
          let params := cppSubstr inner (ne + 1) ((fe : Int) - (ne + 1))
          some (name, paramLoop params (params.length + 1) 0 [])

/-- The outer scanning loop of parse_universal_xml_tool_calls.  An open
tag without a later close tag advances the cursor just past the open tag;
a region that fails validation advances past its close tag; a successful
region emits a call and bumps the id counter. -/
def xmlLoop (t : Txt) : Nat → Nat → Nat → List ToolCall × Nat
  | 0, _, ctr => ([], ctr)
  | fuel+1, pos, ctr =>
    match findFrom t openTag pos with
    | none => ([], ctr)
    | some s =>
      match findFrom t closeTag s with
      | none => xmlLoop t fuel (s + 11) ctr
      | some e =>
        let inner := cppSubstr t (s + 11) ((e : Int) - (s + 11))
        match regionCall inner with
        | none => xmlLoop t fuel (e + 12) ctr
        | some (nm, kvs) =>
          let tc := mkUnivCall nm (dumpVal (.jobj (toJObj kvs))) (ctr + 1)
          let rest := xmlLoop t fuel (e + 12) (ctr + 1)
          (tc :: rest.1, rest.2)

/-- parse_universal_xml_tool_calls.  The C++ static counter is threaded
explicitly: the second component is the counter value after the call. -/
def parse_universal_xml_tool_calls (t : Txt) (ctr : Nat) : List ToolCall × Nat :=
  xmlLoop t (t.length + 1) 0 ctr

/-- parse_tool_calls: run the JSON-style extraction; if it found nothing,
fall back to the universal XML extractor (the only place the persistent
counter can advance). -/
def parse_tool_calls (t : Txt) (ctr : Nat) : List ToolCall × Nat :=
  let calls := jsonPhase t
  if calls.isEmpty then parse_universal_xml_tool_calls t ctr else (calls, ctr)

/-! ## The content sanitizer (extract_content_during_parsing) -/

/-- regex_replace of the lazy pattern open-tag .. close-tag with the empty
string: repeatedly locate the first open tag that still has a close tag
after it, drop that shortest region, and continue after it.  (If the
first open tag has no close tag after its end, no later one has either,
so nothing further matches.) -/
def removeRegionsF : Nat → Txt → Txt
  | 0, t => t
  | fuel+1, t =>
    match findFrom t openTag 0 with
    | none => t
    | some p =>
      match findFrom t closeTag (p + 11) with
      | none => t
      | some j => t.take p ++ removeRegionsF fuel (t.drop (j + 12))

/-- All complete tool-call regions removed. -/
def removeRegions (t : Txt) : Txt := removeRegionsF (t.length + 1) t

/-- extract_content_during_parsing: strip complete regions; when the
stream is still partial, truncate at the first remaining open tag; then
trim outer whitespace. -/
def extract_content_during_parsing (t : Txt) (isPartial : Bool) : Txt :=
  let content := removeRegionsF (t.length + 1) t
  let content :=
    if isPartial then
      match findFrom content openTag 0 with
      | some i => content.take i
      | none => content
    else content
  string_strip content

/-- clean_content: the legacy entry point. -/
def clean_content (content : Txt) : Txt :=
  extract_content_during_parsing content false

/-! ## The partial-detection predicate (is_partial_content_advanced) -/

/-- A match of the regex open-tag whitespace open-brace then no close
brace up to the end of input, anchored at position p. -/
def jsonTailAt (t : Txt) (p : Nat) : Bool :=
  openTag.isPrefixOf (t.drop p) &&
    (let q := skipWs6 t (p + 11)
     (t[q]? == some '{') && (t.drop (q+1)).all (fun c => c != '}'))

/-- regex_search scan for the incomplete-JSON tail pattern. -/
def cond2Scan (t : Txt) : Nat → Nat → Bool
  | 0, _ => false
  | fuel+1, p =>
    if jsonTailAt t p then true
    else if p < t.length then cond2Scan t fuel (p+1)
    else false

/-- Does the incomplete-JSON tail pattern match anywhere. -/
def hasIncompleteJsonTail (t : Txt) : Bool := cond2Scan t (t.length + 1) 0

/-- is_partial_content_advanced: empty content is never partial; then the
three checks of the source in order: an open tag whose first occurrence
has no close tag after it; the incomplete-JSON tail pattern; and, after
the last function marker, a missing closing function tag or a parameter
marker without its closing tag. -/
def isPartialContentAdvanced (content : Txt) : Bool :=
  if content.isEmpty then false
  else
    let cond1 :=
      match findFrom content openTag 0 with
      | some p => (findFrom content closeTag p).isNone
      | none => false
    if cond1 then true
    else if hasIncompleteJsonTail content then true
    else
      match findFrom content funcTag 0 with
      | none => false
      | some _ =>
        match rfind content funcTag with
        | none => false
        | some fp =>
          let part := content.drop fp
          if (findFrom part closeFunc 0).isNone then true
          else if (findFrom part paramTag 0).isSome && (findFrom part closeParam 0).isNone then true
          else false

/-! ## Auxiliary notions used by theorem statements -/

/-- Everything of a tool call except its id. -/
def stripId (tc : ToolCall) : Txt × Txt × Txt := (tc.ttype, tc.fname, tc.args)

/-- The arguments string a was taken verbatim from a string-valued
"arguments" field of some captured candidate of the text t (the
pass-through case of the JSON extractor). -/
def isPassthroughArg (t : Txt) (a : Txt) : Prop :=
  ∃ pos v,
    (∃ p q e, nextJsonMatch t pos = some (p, q, e) ∧
      parseJson (trimBy isWs4 (captureOf t q e)) = some v) ∧
    objLookup v argsKey = some (.jstr a)

mutual
/-- Size measure of a JSON value, used as a fuel lower bound for the
parser in the serialization round trip. -/
def jsizeV : JVal → Nat
  | .jarr xs => 1 + jsizeA xs
  | .jobj kvs => 1 + jsizeO kvs
  | _ => 1
/-- Size measure of an array. -/
def jsizeA : JArr → Nat
  | .anil => 0
  | .acons v tl => 1 + jsizeV v + jsizeA tl
/-- Size measure of an object member list. -/
def jsizeO : JObj → Nat
  | .onil => 0
  | .ocons _ v tl => 1 + jsizeV v + jsizeO tl
end

/-- The id strings emitted for n consecutive calls when the counter
starts at base: f (base+1), f (base+2), ..., f (base+n). -/
def idsFrom (f : Nat → Txt) (base n : Nat) : List Txt :=
  (List.range n).map (fun i => f (base + 1 + i))

/-- The text that follows a serialized value in a larger serialized
document never starts with a number character (it starts with a comma, a
close bracket, a close brace, or is empty), so the number lexer cannot
overrun. -/
def headNumOk (r : Txt) : Prop := ∀ c, r.head? = some c → isNumChar c = false

mutual
/-- Well-formedness of a JSON value: every number lexeme is a valid JSON
number made of number characters.  Every value produced by the parser is
well formed. -/
def wfV : JVal → Bool
  | .jnum l => validNum l && l.all isNumChar
  | .jarr xs => wfA xs
  | .jobj kvs => wfO kvs
  | _ => true
/-- Well-formedness of an array. -/
def wfA : JArr → Bool
  | .anil => true
  | .acons v tl => wfV v && wfA tl
/-- Well-formedness of an object member list. -/
def wfO : JObj → Bool
  | .onil => true
  | .ocons _ v tl => wfV v && wfO tl
end

/-! ## Lemmas about the find primitive -/

theorem prefix_length_le {n l : Txt} (h : n.isPrefixOf l = true) : n.length ≤ l.length :=
  (List.isPrefixOf_iff_prefix.mp h).length_le

theorem not_prefix_nil {n : Txt} (hn : n ≠ []) : n.isPrefixOf ([] : Txt) = false := by
  cases n with
  | nil => exact absurd rfl hn
  | cons c r => rfl

theorem findFromAux_some_ge {t n : Txt} : ∀ {fuel i j : Nat},
    findFromAux t n fuel i = some j → i ≤ j := by
  intro fuel
  induction fuel with
  | zero => intro i j h; simp [findFromAux] at h
  | succ f ih =>
    intro i j h
    simp only [findFromAux] at h
    split at h
    · cases h; exact Nat.le_refl _
    · split at h
      · exact Nat.le_of_succ_le (ih h)
      · simp at h

theorem findFromAux_some_hit {t n : Txt} : ∀ {fuel i j : Nat},
    findFromAux t n fuel i = some j → n.isPrefixOf (t.drop j) = true := by
  intro fuel
  induction fuel with
  | zero => intro i j h; simp [findFromAux] at h
  | succ f ih =>
    intro i j h
    simp only [findFromAux] at h
    split at h
    · rename_i hpre; cases h; exact hpre
    · split at h
      · exact ih h
      · simp at h

theorem findFromAux_some_min {t n : Txt} : ∀ {fuel i j : Nat},
    findFromAux t n fuel i = some j →
    ∀ k, i ≤ k → k < j → n.isPrefixOf (t.drop k) = false := by
  intro fuel
  induction fuel with
  | zero => intro i j h; simp [findFromAux] at h
  | succ f ih =>
    intro i j h k hik hkj
    simp only [findFromAux] at h
    split at h
    · cases h; omega
    · rename_i hpre
      split at h
      · rcases Nat.eq_or_lt_of_le hik with rfl | hlt
        · simp only [Bool.not_eq_true] at hpre; exact hpre
        · exact ih h k hlt hkj
      · simp at h

theorem findFromAux_none {t n : Txt} (hn : n ≠ []) : ∀ {fuel i : Nat},
    findFromAux t n fuel i = none → t.length + 1 - i ≤ fuel →
    ∀ k, i ≤ k → n.isPrefixOf (t.drop k) = false := by
  intro fuel
  induction fuel with
  | zero =>
    intro i _ hf k hik
    rw [List.drop_eq_nil_of_le (by omega)]
    exact not_prefix_nil hn
  | succ f ih =>
    intro i h hf k hik
    simp only [findFromAux] at h
    split at h
    · simp at h
    · rename_i hpre
      simp only [Bool.not_eq_true] at hpre
      split at h
      · rcases Nat.eq_or_lt_of_le hik with rfl | hlt
        · exact hpre
        · exact ih h (by omega) k hlt
      · rename_i hlen
        rcases Nat.eq_or_lt_of_le hik with rfl | hlt
        · exact hpre
        · rw [List.drop_eq_nil_of_le (by omega)]
          exact not_prefix_nil hn

theorem findFrom_some_ge {t n : Txt} {s j : Nat} (h : findFrom t n s = some j) : s ≤ j :=
  findFromAux_some_ge h

theorem findFrom_some_hit {t n : Txt} {s j : Nat} (h : findFrom t n s = some j) :
    n.isPrefixOf (t.drop j) = true :=
  findFromAux_some_hit h

theorem findFrom_some_min {t n : Txt} {s j : Nat} (h : findFrom t n s = some j) :
    ∀ k, s ≤ k → k < j → n.isPrefixOf (t.drop k) = false :=
  findFromAux_some_min h

theorem findFrom_none {t n : Txt} (hn : n ≠ []) {s : Nat} (h : findFrom t n s = none) :
    ∀ k, s ≤ k → n.isPrefixOf (t.drop k) = false :=
  findFromAux_none hn h (Nat.le_refl _)

/-- An occurrence of a non-empty needle fits inside the text. -/
theorem occurrence_bound {t n : Txt} {j : Nat} (hn : n ≠ [])
    (h : n.isPrefixOf (t.drop j) = true) : j + n.length ≤ t.length := by
  have hle := prefix_length_le h
  rw [List.length_drop] at hle
  have hpos : 0 < n.length := List.length_pos.mpr hn
  omega

/-- If no occurrence exists at or after s, none exists at or after a later
start either. -/
theorem findFrom_none_mono {t n : Txt} (hn : n ≠ []) {s s2 : Nat}
    (h : findFrom t n s = none) (hs : s ≤ s2) : findFrom t n s2 = none := by
  cases hf : findFrom t n s2 with
  | none => rfl
  | some j =>
    have := findFrom_none hn h j (Nat.le_trans hs (findFrom_some_ge hf))
    rw [findFrom_some_hit hf] at this
    exact absurd this (by simp)

/-- A start past the end of the text finds nothing. -/
theorem findFrom_none_of_gt {t n : Txt} {s : Nat} (h : t.length < s) :
    findFrom t n s = none := by
  unfold findFrom
  rw [Nat.sub_eq_zero_of_le (by omega)]
  rfl

/-! ## Shared helper lemmas about the sanitizer and the partial predicate -/

theorem openTag_ne_nil : openTag ≠ [] := by decide

theorem closeTag_ne_nil : closeTag ≠ [] := by decide

/-- If the first open tag of the content has no close tag after it, the
partial predicate fires on its first check. -/
theorem partial_of_first_open_unterminated {content : Txt} {p : Nat}
    (hopen : findFrom content openTag 0 = some p)
    (hclose : findFrom content closeTag p = none) :
    isPartialContentAdvanced content = true := by
  have hb := occurrence_bound openTag_ne_nil (findFrom_some_hit hopen)
  have hne : content.isEmpty = false := by
    cases content with
    | nil => simp [openTag, txt] at hb
    | cons c r => rfl
  unfold isPartialContentAdvanced
  rw [hne]
  simp only [hopen, hclose, Bool.false_eq_true, if_false, Option.isNone_none, if_true]

/-- If the first open tag of the text has no close tag after it, no
complete region exists, so region removal is the identity. -/
theorem removeRegions_id_of_first_open_unterminated {t : Txt} {p : Nat}
    (hopen : findFrom t openTag 0 = some p)
    (hclose : findFrom t closeTag p = none) :
    removeRegionsF (t.length + 1) t = t := by
  simp only [removeRegionsF, hopen,
    findFrom_none_mono closeTag_ne_nil hclose (Nat.le_add_right p 11)]

/-- If the first open tag of the text has no close tag after it, partial
sanitization truncates exactly at that tag. -/
theorem truncate_of_first_open_unterminated {t : Txt} {p : Nat}
    (hopen : findFrom t openTag 0 = some p)
    (hclose : findFrom t closeTag p = none) :
    extract_content_during_parsing t true = string_strip (t.take p) := by
  unfold extract_content_during_parsing
  rw [removeRegions_id_of_first_open_unterminated hopen hclose]
  simp only [hopen, if_true]

/-! ## Claim theorems settled by direct evaluation -/

/-- C1: on the input consisting of one tool_call region holding the JSON
payload with name "foo" and the nested arguments object with key "a" and
value 1, parse_tool_calls returns exactly one ToolCall whose function
name is "foo" and whose function arguments are the nested object
serialized to the string with key "a" and value 1; the persistent XML
counter is untouched. -/
theorem C1_json_payload_example :
    parse_tool_calls (txt ("<tool_call>\x7b\"name\":\"foo\",\"arguments\":\x7b\"a\":1\x7d\x7d</tool_call>")) 0 =
      ([⟨txt ("qwen3_call_1"), txt ("function"), txt ("foo"), txt ("\x7b\"a\":1\x7d")⟩], 0) := by
  decide

/-- C2 counterexample: the claim asserts that every tool_call region whose
JSON object contains a nested object value is captured truncated at the
first inner close brace.  On the C1 input the lazy capture in fact
extends to the final close brace (index 44, not the first inner one at
index 43) and equals the full payload, because the lazy repetition must
backtrack until whitespace and the close tag follow. -/
theorem C2_counterexample :
    nextJsonMatch (txt ("<tool_call>\x7b\"name\":\"foo\",\"arguments\":\x7b\"a\":1\x7d\x7d</tool_call>")) 0 =
      some (0, 11, 44) ∧
    captureOf (txt ("<tool_call>\x7b\"name\":\"foo\",\"arguments\":\x7b\"a\":1\x7d\x7d</tool_call>")) 11 44 =
      txt ("\x7b\"name\":\"foo\",\"arguments\":\x7b\"a\":1\x7d\x7d") ∧
    captureOf (txt ("<tool_call>\x7b\"name\":\"foo\",\"arguments\":\x7b\"a\":1\x7d\x7d</tool_call>")) 11 44 ≠
      txt ("\x7b\"name\":\"foo\",\"arguments\":\x7b\"a\":1\x7d") := by
  decide

/-- C3 counterexample: the claim asserts every emitted ToolCall has
arguments that parse as valid JSON.  A string-valued arguments field is
passed through verbatim: here the extractor emits arguments equal to the
five characters of hello, which the JSON parser rejects. -/
theorem C3_counterexample :
    (parse_tool_calls (txt ("<tool_call>\x7b\"name\":\"f\",\"arguments\":\"hello\"\x7d</tool_call>")) 0).1 =
      [⟨txt ("qwen3_call_1"), txt ("function"), txt ("f"), txt ("hello")⟩] ∧
    (parseJson (txt ("hello"))).isSome = false := by
  decide

/-- C4 counterexample: the claim asserts the predicate returns true
whenever some open tag has no close tag after it.  In this input the
open tag at index 23 is unterminated, yet the predicate only inspects
the first open tag (index 0, which is closed) and returns false. -/
theorem C4_counterexample :
    openTag.isPrefixOf ((txt ("<tool_call></tool_call><tool_call>")).drop 23) = true ∧
    findFrom (txt ("<tool_call></tool_call><tool_call>")) closeTag 23 = none ∧
    isPartialContentAdvanced (txt ("<tool_call></tool_call><tool_call>")) = false := by
  decide

/-- C4 amended: if the first open tag occurrence in the content has no
close tag occurrence after it, the partial-detection predicate returns
true.  (The source only inspects the first open tag, so the claim holds
for the first occurrence, not for an arbitrary one.) -/
theorem C4_amended_first_open_unterminated (content : Txt) (p : Nat)
    (hopen : findFrom content openTag 0 = some p)
    (hclose : findFrom content closeTag p = none) :
    isPartialContentAdvanced content = true :=
  partial_of_first_open_unterminated hopen hclose

/-- Witness for the amended C4 at the eleven-character input consisting
of a lone open tag. -/
theorem C4_amended_witness :
    isPartialContentAdvanced (txt ("<tool_call>")) = true :=
  C4_amended_first_open_unterminated (txt ("<tool_call>")) 0 (by decide) (by decide)

/-- C6 counterexample: the claim asserts that any text ending in an
unterminated open tag makes the predicate return true.  This text ends
with an unterminated open tag at index 24 (its last eleven characters),
yet the predicate returns false because the first open tag is closed. -/
theorem C6_counterexample :
    openTag.isPrefixOf ((txt ("<tool_call>a</tool_call><tool_call>")).drop 24) = true ∧
    (txt ("<tool_call>a</tool_call><tool_call>")).length = 24 + 11 ∧
    findFrom (txt ("<tool_call>a</tool_call><tool_call>")) closeTag 24 = none ∧
    isPartialContentAdvanced (txt ("<tool_call>a</tool_call><tool_call>")) = false := by
  decide

/-- C6 amended: if the first open tag occurrence of the text has no close
tag after it (in particular the text cannot contain any complete region),
the predicate returns true and sanitization with the partial flag
truncates the output at that tag position, then trims whitespace. -/
theorem C6_amended_truncation (t : Txt) (p : Nat)
    (hopen : findFrom t openTag 0 = some p)
    (hclose : findFrom t closeTag p = none) :
    isPartialContentAdvanced t = true ∧
    extract_content_during_parsing t true = string_strip (t.take p) :=
  ⟨partial_of_first_open_unterminated hopen hclose,
   truncate_of_first_open_unterminated hopen hclose⟩

/-- Witness for the amended C6: a lone trailing open tag after prose is
detected as partial and the sanitized output is the trimmed prose. -/
theorem C6_amended_witness :
    isPartialContentAdvanced (txt ("hi <tool_call>")) = true ∧
    extract_content_during_parsing (txt ("hi <tool_call>")) true = txt ("hi") := by
  have h := C6_amended_truncation (txt ("hi <tool_call>")) 3 (by decide) (by decide)
  exact ⟨h.1, by rw [h.2]; decide⟩

/-- C9: the legacy clean_content entry point is extensionally the
sanitizer with the partial flag off (it is defined as that call). -/
theorem C9_clean_content_equiv :
    ∀ s, clean_content s = extract_content_during_parsing s false :=
  fun _ => rfl

/-- C10: the universal XML extractor accepts an empty parameter KEY — the
pair of the empty key and the value 5 is stored under the empty-string
key of the arguments object — while an empty function NAME disqualifies
the region entirely (second conjunct). -/
theorem C10_empty_parameter_key :
    parse_universal_xml_tool_calls
        (txt ("<tool_call><function=f><parameter=>5</parameter></function></tool_call>")) 0 =
      ([⟨txt ("call_universal_1"), txt ("function"), txt ("f"), txt ("\x7b\"\":\"5\"\x7d")⟩], 1) ∧
    parse_universal_xml_tool_calls
        (txt ("<tool_call><function=><parameter=x>5</parameter></function></tool_call>")) 0 =
      ([], 0) := by
  decide

/-! ## Characterization of the lazy capture end (for the amended C2) -/

theorem braceScan_some_ge {t : Txt} : ∀ {fuel k e : Nat},
    braceScan t fuel k = some e → k ≤ e := by
  intro fuel
  induction fuel with
  | zero => intro k e h; simp [braceScan] at h
  | succ f ih =>
    intro k e h
    simp only [braceScan] at h
    split at h
    · split at h
      · cases h; exact Nat.le_refl _
      · exact Nat.le_of_succ_le (ih h)
    · simp at h

theorem braceScan_some_cond {t : Txt} : ∀ {fuel k e : Nat},
    braceScan t fuel k = some e →
    t[e]? = some '}' ∧ closeTag.isPrefixOf (t.drop (skipWs6 t (e+1))) = true := by
  intro fuel
  induction fuel with
  | zero => intro k e h; simp [braceScan] at h
  | succ f ih =>
    intro k e h
    simp only [braceScan] at h
    split at h
    · split at h
      · rename_i hcond
        cases h
        simpa [Bool.and_eq_true, beq_iff_eq] using hcond
      · exact ih h
    · simp at h

theorem braceScan_some_min {t : Txt} : ∀ {fuel k e : Nat},
    braceScan t fuel k = some e →
    ∀ j, k ≤ j → j < e →
      ¬(t[j]? = some '}' ∧ closeTag.isPrefixOf (t.drop (skipWs6 t (j+1))) = true) := by
  intro fuel
  induction fuel with
  | zero => intro k e h; simp [braceScan] at h
  | succ f ih =>
    intro k e h j hkj hje
    simp only [braceScan] at h
    split at h
    · split at h
      · cases h; omega
      · rename_i hcond
        rcases Nat.eq_or_lt_of_le hkj with rfl | hlt
        · simpa [Bool.and_eq_true, beq_iff_eq] using hcond
        · exact ih h j hlt hje
    · simp at h

theorem jsonMatchAt_some {t : Txt} {p q e : Nat} (h : jsonMatchAt t p = some (q, e)) :
    q = skipWs6 t (p + 11) ∧ t[q]? = some '{' ∧
    braceScan t (t.length + 1 - q) q = some e := by
  unfold jsonMatchAt at h
  split at h
  · split at h
    · rename_i hbrace
      split at h
      · rename_i e0 hscan
        cases h
        exact ⟨rfl, hbrace, hscan⟩
      · simp at h
    · simp at h
  · simp at h

theorem jsonScanP_some {t : Txt} : ∀ {fuel p0 p q e : Nat},
    jsonScanP t fuel p0 = some (p, q, e) → jsonMatchAt t p = some (q, e) := by
  intro fuel
  induction fuel with
  | zero => intro p0 p q e h; simp [jsonScanP] at h
  | succ f ih =>
    intro p0 p q e h
    simp only [jsonScanP] at h
    split at h
    · rename_i q0 e0 hm
      cases h
      exact hm
    · split at h
      · exact ih h
      · simp at h

/-- C2 amended: the capture group of the JSON extractor starts at an open
brace and ends exactly at the first close brace (at or after the capture
start) that is followed by optional whitespace and the closing tool_call
tag; no earlier position with that property exists.  In particular the
capture is not cut at an inner close brace that is not directly followed
by the region closer. -/
theorem C2_amended_capture_end (t : Txt) (s p q e : Nat)
    (h : nextJsonMatch t s = some (p, q, e)) :
    t[q]? = some '{' ∧ t[e]? = some '}' ∧
    closeTag.isPrefixOf (t.drop (skipWs6 t (e+1))) = true ∧
    (∀ k, q ≤ k → k < e →
      ¬(t[k]? = some '}' ∧ closeTag.isPrefixOf (t.drop (skipWs6 t (k+1))) = true)) := by
  have hm := jsonScanP_some h
  obtain ⟨hq, hbrace, hscan⟩ := jsonMatchAt_some hm
  obtain ⟨he1, he2⟩ := braceScan_some_cond hscan
  exact ⟨hbrace, he1, he2, braceScan_some_min hscan⟩

/-- Witness for the amended C2 at the C1 input: the capture starts at the
open brace at index 11 and ends at the final close brace at index 44; no
close brace before index 44 is followed by whitespace and the close tag
(in particular not the inner one at index 43). -/
theorem C2_amended_witness :
    (txt ("<tool_call>\x7b\"name\":\"foo\",\"arguments\":\x7b\"a\":1\x7d\x7d</tool_call>"))[11]? = some '{' ∧
    (txt ("<tool_call>\x7b\"name\":\"foo\",\"arguments\":\x7b\"a\":1\x7d\x7d</tool_call>"))[44]? = some '}' ∧
    closeTag.isPrefixOf ((txt ("<tool_call>\x7b\"name\":\"foo\",\"arguments\":\x7b\"a\":1\x7d\x7d</tool_call>")).drop
      (skipWs6 (txt ("<tool_call>\x7b\"name\":\"foo\",\"arguments\":\x7b\"a\":1\x7d\x7d</tool_call>")) (44+1))) = true ∧
    (∀ k, 11 ≤ k → k < 44 →
      ¬((txt ("<tool_call>\x7b\"name\":\"foo\",\"arguments\":\x7b\"a\":1\x7d\x7d</tool_call>"))[k]? = some '}' ∧
        closeTag.isPrefixOf ((txt ("<tool_call>\x7b\"name\":\"foo\",\"arguments\":\x7b\"a\":1\x7d\x7d</tool_call>")).drop
          (skipWs6 (txt ("<tool_call>\x7b\"name\":\"foo\",\"arguments\":\x7b\"a\":1\x7d\x7d</tool_call>")) (k+1))) = true)) :=
  C2_amended_capture_end
    (txt ("<tool_call>\x7b\"name\":\"foo\",\"arguments\":\x7b\"a\":1\x7d\x7d</tool_call>"))
    0 0 11 44 (by decide)

/-! ## Id assignment and idempotence of the two extractors (C5, C7, C8) -/

theorem idsFrom_succ (f : Nat → Txt) (base n : Nat) :
    idsFrom f base (n+1) = f (base + 1) :: idsFrom f (base + 1) n := by
  unfold idsFrom
  rw [List.range_succ_eq_map, List.map_cons, List.map_map]
  refine congrArg₂ _ (by rw [Nat.add_zero]) (List.map_congr_left fun a _ => ?_)
  simp only [Function.comp_apply]
  congr 1
  omega

/-- The JSON extractor assigns ids from a per-invocation counter: the
calls emitted with counter value ctr get ids ctr+1, ctr+2, ... -/
theorem jsonLoop_ids (t : Txt) : ∀ (fuel pos ctr : Nat),
    (jsonLoop t fuel pos ctr).map ToolCall.id =
      idsFrom qwenId ctr (jsonLoop t fuel pos ctr).length := by
  intro fuel
  induction fuel with
  | zero => intro pos ctr; simp [jsonLoop, idsFrom]
  | succ f ih =>
    intro pos ctr
    cases hm : nextJsonMatch t pos with
    | none => simp [jsonLoop, hm, idsFrom]
    | some pe =>
      obtain ⟨p, q, e⟩ := pe
      cases hc : jsonCandidate (trimBy isWs4 (captureOf t q e)) with
      | none => simp only [jsonLoop, hm, hc]; exact ih _ _
      | some nmargs =>
        obtain ⟨nm, args⟩ := nmargs
        simp only [jsonLoop, hm, hc, List.map_cons, List.length_cons, idsFrom_succ]
        exact congrArg₂ _ rfl (ih _ _)

/-- The universal XML extractor assigns ids continuing from the incoming
counter value, and returns the counter advanced by the number of emitted
calls. -/
theorem xmlLoop_ids (t : Txt) : ∀ (fuel pos ctr : Nat),
    (xmlLoop t fuel pos ctr).1.map ToolCall.id =
      idsFrom univId ctr (xmlLoop t fuel pos ctr).1.length ∧
    (xmlLoop t fuel pos ctr).2 = ctr + (xmlLoop t fuel pos ctr).1.length := by
  intro fuel
  induction fuel with
  | zero => intro pos ctr; simp [xmlLoop, idsFrom]
  | succ f ih =>
    intro pos ctr
    cases hopen : findFrom t openTag pos with
    | none => simp [xmlLoop, hopen, idsFrom]
    | some s =>
      cases hclose : findFrom t closeTag s with
      | none => simp only [xmlLoop, hopen, hclose]; exact ih _ _
      | some e =>
        cases hr : regionCall (cppSubstr t (s + 11) ((e : Int) - (s + 11))) with
        | none => simp only [xmlLoop, hopen, hclose, hr]; exact ih _ _
        | some nmkvs =>
          obtain ⟨nm, kvs⟩ := nmkvs
          obtain ⟨ih1, ih2⟩ := ih (e + 12) (ctr + 1)
          simp only [xmlLoop, hopen, hclose, hr]
          refine ⟨?_, ?_⟩
          · simp only [List.map_cons, List.length_cons, idsFrom_succ]
            exact congrArg₂ _ rfl ih1
          · simp only [List.length_cons, ih2]
            omega

/-- The non-id content emitted by the XML extractor does not depend on
the incoming counter value. -/
theorem xmlLoop_stripId (t : Txt) : ∀ (fuel pos c1 c2 : Nat),
    (xmlLoop t fuel pos c1).1.map stripId = (xmlLoop t fuel pos c2).1.map stripId := by
  intro fuel
  induction fuel with
  | zero => intro pos c1 c2; simp [xmlLoop]
  | succ f ih =>
    intro pos c1 c2
    cases hopen : findFrom t openTag pos with
    | none => simp [xmlLoop, hopen]
    | some s =>
      cases hclose : findFrom t closeTag s with
      | none => simp only [xmlLoop, hopen, hclose]; exact ih _ _ _
      | some e =>
        cases hr : regionCall (cppSubstr t (s + 11) ((e : Int) - (s + 11))) with
        | none => simp only [xmlLoop, hopen, hclose, hr]; exact ih _ _ _
        | some nmkvs =>
          obtain ⟨nm, kvs⟩ := nmkvs
          simp only [xmlLoop, hopen, hclose, hr, List.map_cons]
          exact congrArg₂ _ rfl (ih _ _ _)

/-- C5: id scoping of the two extractors.  The JSON extractor numbers its
calls from a counter local to each invocation, so every invocation
yields ids qwen3_call_1, qwen3_call_2, ...; the universal XML extractor
numbers from the persistent process-wide counter: a run entered with
counter value c emits call_universal_(c+1), ..., call_universal_(c+n)
and leaves the counter at c+n, so a second run (on any text u)
continues strictly above the first and never resets. -/
theorem C5_id_scoping (t u : Txt) (c : Nat) :
    ((jsonPhase t).map ToolCall.id = idsFrom qwenId 0 (jsonPhase t).length) ∧
    ((parse_universal_xml_tool_calls t c).1.map ToolCall.id =
      idsFrom univId c (parse_universal_xml_tool_calls t c).1.length) ∧
    ((parse_universal_xml_tool_calls t c).2 =
      c + (parse_universal_xml_tool_calls t c).1.length) ∧
    ((parse_universal_xml_tool_calls u (parse_universal_xml_tool_calls t c).2).1.map ToolCall.id =
      idsFrom univId (c + (parse_universal_xml_tool_calls t c).1.length)
        (parse_universal_xml_tool_calls u (parse_universal_xml_tool_calls t c).2).1.length) := by
  refine ⟨jsonLoop_ids t _ _ _, (xmlLoop_ids t _ _ _).1, (xmlLoop_ids t _ _ _).2, ?_⟩
  unfold parse_universal_xml_tool_calls
  rw [← (xmlLoop_ids t (t.length + 1) 0 c).2]
  exact (xmlLoop_ids u _ _ _).1

/-- C7: extraction is idempotent up to XML ids.  Two runs of
parse_tool_calls on the same text with any counter states yield call
lists that agree on every field except possibly the id; when the JSON
extractor found anything (so the XML fallback and its persistent counter
are not involved), the two runs are fully identical, ids included. -/
theorem C7_idempotent (t : Txt) (c1 c2 : Nat) :
    ((parse_tool_calls t c1).1.map stripId = (parse_tool_calls t c2).1.map stripId) ∧
    (jsonPhase t ≠ [] → (parse_tool_calls t c1).1 = (parse_tool_calls t c2).1) := by
  unfold parse_tool_calls
  by_cases h : (jsonPhase t).isEmpty
  · simp only [h, if_true]
    refine ⟨xmlLoop_stripId t _ _ _ _, fun hne => ?_⟩
    exact absurd (List.isEmpty_iff.mp h) hne
  · simp [h]

/-- Witness for C7 at the C1 input with two different counter states:
the outputs coincide exactly because the JSON extractor succeeds. -/
theorem C7_witness :
    (parse_tool_calls (txt ("<tool_call>\x7b\"name\":\"foo\",\"arguments\":\x7b\"a\":1\x7d\x7d</tool_call>")) 1).1 =
    (parse_tool_calls (txt ("<tool_call>\x7b\"name\":\"foo\",\"arguments\":\x7b\"a\":1\x7d\x7d</tool_call>")) 5).1 :=
  (C7_idempotent (txt ("<tool_call>\x7b\"name\":\"foo\",\"arguments\":\x7b\"a\":1\x7d\x7d</tool_call>")) 1 5).2
    (by decide)

/-- The XML scanning loop is insensitive to the fuel bound once the fuel
covers the remaining text: the computation stabilizes, i.e. the loop
terminates within the fuel supplied by the entry point. -/
theorem xmlLoop_stable (t : Txt) : ∀ (f1 f2 pos c : Nat),
    t.length + 1 - pos ≤ f1 → t.length + 1 - pos ≤ f2 →
    xmlLoop t f1 pos c = xmlLoop t f2 pos c := by
  intro f1
  induction f1 with
  | zero =>
    intro f2 pos c h1 h2
    have hpos : t.length < pos := by omega
    cases f2 with
    | zero => rfl
    | succ f2 => simp [xmlLoop, findFrom_none_of_gt hpos]
  | succ f1 ih =>
    intro f2 pos c h1 h2
    by_cases hpos : t.length < pos
    · cases f2 with
      | zero => simp [xmlLoop, findFrom_none_of_gt hpos]
      | succ f2 => simp [xmlLoop, findFrom_none_of_gt hpos]
    · cases f2 with
      | zero => omega
      | succ f2 =>
        cases hopen : findFrom t openTag pos with
        | none => simp only [xmlLoop, hopen]
        | some s =>
          have hs : pos ≤ s := findFrom_some_ge hopen
          cases hclose : findFrom t closeTag s with
          | none =>
            simp only [xmlLoop, hopen, hclose]
            exact ih f2 (s + 11) c (by omega) (by omega)
          | some e =>
            have hse : s ≤ e := findFrom_some_ge hclose
            cases hr : regionCall (cppSubstr t (s + 11) ((e : Int) - (s + 11))) with
            | none =>
              simp only [xmlLoop, hopen, hclose, hr]
              exact ih f2 (e + 12) c (by omega) (by omega)
            | some nmkvs =>
              obtain ⟨nm, kvs⟩ := nmkvs
              simp only [xmlLoop, hopen, hclose, hr]
              rw [ih f2 (e + 12) (c + 1) (by omega) (by omega)]

/-- C8: the universal XML extractor is a total function of its input.
First conjunct: the scanning loop stabilizes — any fuel at least the
text length plus one computes the same result as the entry point, so the
recursion always terminates within the supplied bound.  Second conjunct:
on an opening tag with no matching closer the loop takes exactly one
step to the cursor just past the opening tag, which is strictly beyond
the current cursor (no infinite loop on unterminated input). -/
theorem C8_total_and_advancing :
    (∀ (t : Txt) (c f : Nat), t.length + 1 ≤ f →
      xmlLoop t f 0 c = parse_universal_xml_tool_calls t c) ∧
    (∀ (t : Txt) (pos s c f : Nat),
      findFrom t openTag pos = some s →
      findFrom t closeTag s = none →
      xmlLoop t (f+1) pos c = xmlLoop t f (s + 11) c ∧ pos ≤ s ∧ pos < s + 11) := by
  constructor
  · intro t c f hf
    exact xmlLoop_stable t f (t.length + 1) 0 c (by omega) (by omega)
  · intro t pos s c f hopen hclose
    have hs : pos ≤ s := findFrom_some_ge hopen
    refine ⟨?_, hs, by omega⟩
    simp only [xmlLoop, hopen, hclose]

/-- Witness for C8: the stabilization applied to a one-character text
with surplus fuel, and the one-step advance on a lone unterminated open
tag. -/
theorem C8_witness :
    xmlLoop (txt ("a")) 3 0 0 = parse_universal_xml_tool_calls (txt ("a")) 0 ∧
    (xmlLoop (txt ("<tool_call>")) (5+1) 0 0 = xmlLoop (txt ("<tool_call>")) 5 (0 + 11) 0 ∧
      0 ≤ 0 ∧ 0 < 0 + 11) :=
  ⟨C8_total_and_advancing.1 (txt ("a")) 0 3 (by decide),
   C8_total_and_advancing.2 (txt ("<tool_call>")) 0 0 0 5 (by decide) (by decide)⟩

/-! ## Serialization round trip, part 1: characters and strings -/

set_option maxRecDepth 8192

theorem skipJWs_cons_of_not_ws {c : Char} {r : Txt} (h : isJsonWs c = false) :
    skipJWs (c :: r) = c :: r := by
  simp [skipJWs, List.dropWhile_cons, h]

theorem takeWhile_append_all {p : Char → Bool} : ∀ {l r : Txt},
    l.all p = true → (∀ c, r.head? = some c → p c = false) →
    (l ++ r).takeWhile p = l ∧ (l ++ r).dropWhile p = r := by
  intro l
  induction l with
  | nil =>
    intro r _ hr
    cases r with
    | nil => simp
    | cons c rs =>
      have hc := hr c rfl
      simp [List.takeWhile_cons, List.dropWhile_cons, hc]
  | cons a l ih =>
    intro r hl hr
    simp only [List.all_cons, Bool.and_eq_true] at hl
    have hrec := ih hl.2 hr
    simp [List.takeWhile_cons, List.dropWhile_cons, hl.1, hrec.1, hrec.2]

theorem hexDig_facts : ∀ n, n < 16 → isHexD (hexDig n) = true ∧ hexV (hexDig n) = n := by
  decide

theorem parseStrBody_hex (a b : Nat) (ha : a < 16) (hb : b < 16) (rest : Txt) :
    parseStrBody ('\\' :: 'u' :: '0' :: '0' :: hexDig a :: hexDig b :: rest) =
      mapCons (Char.ofNat (a * 16 + b)) (parseStrBody rest) := by
  obtain ⟨ha1, ha2⟩ := hexDig_facts a ha
  obtain ⟨hb1, hb2⟩ := hexDig_facts b hb
  rw [parseStrBody.eq_def]
  simp [ha1, hb1, ha2, hb2,
    (by decide : isHexD '0' = true), (by decide : hexV '0' = 0)]

theorem escChar_parse (c : Char) (rest : Txt) :
    parseStrBody (escChar c ++ rest) = mapCons c (parseStrBody rest) := by
  by_cases h1 : c = '"'
  · subst h1
    show parseStrBody ('\\' :: '"' :: rest) = mapCons '"' (parseStrBody rest)
    rw [parseStrBody.eq_def]; simp
  by_cases h2 : c = '\\'
  · subst h2
    show parseStrBody ('\\' :: '\\' :: rest) = mapCons '\\' (parseStrBody rest)
    rw [parseStrBody.eq_def]; simp
  by_cases h3 : c = Char.ofNat 8
  · subst h3
    show parseStrBody ('\\' :: 'b' :: rest) = mapCons (Char.ofNat 8) (parseStrBody rest)
    rw [parseStrBody.eq_def]; simp
  by_cases h4 : c = Char.ofNat 9
  · subst h4
    show parseStrBody ('\\' :: 't' :: rest) = mapCons (Char.ofNat 9) (parseStrBody rest)
    rw [parseStrBody.eq_def]; simp
  by_cases h5 : c = Char.ofNat 10
  · subst h5
    show parseStrBody ('\\' :: 'n' :: rest) = mapCons (Char.ofNat 10) (parseStrBody rest)
    rw [parseStrBody.eq_def]; simp
  by_cases h6 : c = Char.ofNat 12
  · subst h6
    show parseStrBody ('\\' :: 'f' :: rest) = mapCons (Char.ofNat 12) (parseStrBody rest)
    rw [parseStrBody.eq_def]; simp
  by_cases h7 : c = Char.ofNat 13
  · subst h7
    show parseStrBody ('\\' :: 'r' :: rest) = mapCons (Char.ofNat 13) (parseStrBody rest)
    rw [parseStrBody.eq_def]; simp
  by_cases h8 : c.toNat < 32
  · have hesc : escChar c = ['\\', 'u', '0', '0', hexDig (c.toNat / 16), hexDig (c.toNat % 16)] := by
      unfold escChar
      rw [if_neg h1, if_neg h2, if_neg h3, if_neg h4, if_neg h5, if_neg h6, if_neg h7, if_pos h8]
    rw [hesc]
    have hx := parseStrBody_hex (c.toNat / 16) (c.toNat % 16) (by omega)
      (Nat.mod_lt _ (by omega)) rest
    simp only [List.cons_append, List.nil_append] at hx ⊢
    rw [hx, show c.toNat / 16 * 16 + c.toNat % 16 = c.toNat by omega, Char.ofNat_toNat]
  · have hesc : escChar c = [c] := by
      unfold escChar
      rw [if_neg h1, if_neg h2, if_neg h3, if_neg h4, if_neg h5, if_neg h6, if_neg h7, if_neg h8]
    rw [hesc]
    show parseStrBody (c :: rest) = mapCons c (parseStrBody rest)
    rw [parseStrBody.eq_def]
    dsimp only
    rw [if_neg h1, if_neg h2, if_neg h8]

theorem parseStrBody_escStr : ∀ (s rest : Txt),
    parseStrBody (escStr s ++ '"' :: rest) = some (s, rest) := by
  intro s
  induction s with
  | nil =>
    intro rest
    show parseStrBody ('"' :: rest) = some ([], rest)
    rw [parseStrBody.eq_def]; simp
  | cons c s ih =>
    intro rest
    rw [escStr, List.append_assoc, escChar_parse, ih]
    rfl

/-! ## Serialization round trip, part 2: numbers and leading characters -/

theorem isDigit_ne {c d : Char} (hd : c.isDigit = true) (hdd : d.isDigit = false) : c ≠ d := by
  rintro rfl
  rw [hd] at hdd
  exact absurd hdd (by decide)

theorem isDigit_not_jsonWs {c : Char} (hd : c.isDigit = true) : isJsonWs c = false := by
  cases hw : isJsonWs c
  · rfl
  · exfalso
    unfold isJsonWs at hw
    simp only [Bool.or_eq_true, decide_eq_true_eq] at hw
    rcases hw with ((rfl | rfl) | rfl) | rfl <;> exact absurd hd (by decide)

/-- Dispatch facts for a character that can start a number lexeme: it is
not whitespace and not any of the characters the value parser checks
before falling through to the number branch. -/
theorem numStart_dispatch {c : Char} (h : c = '-' ∨ c.isDigit = true) :
    isJsonWs c = false ∧ ¬ c = 'n' ∧ ¬ c = 't' ∧ ¬ c = 'f' ∧ ¬ c = '"' ∧ ¬ c = '[' ∧
      ¬ c = '{' ∧ (c = '-' || c.isDigit) = true ∧ ¬ c = ']' := by
  rcases h with rfl | hd
  · exact ⟨by decide, by decide, by decide, by decide, by decide, by decide, by decide,
      by decide, by decide⟩
  · exact ⟨isDigit_not_jsonWs hd, isDigit_ne hd (by decide), isDigit_ne hd (by decide),
      isDigit_ne hd (by decide), isDigit_ne hd (by decide), isDigit_ne hd (by decide),
      isDigit_ne hd (by decide), by simp [hd], isDigit_ne hd (by decide)⟩

theorem chompMinus_cons_ne {c : Char} {r : Txt} (hc : ¬ c = '-') :
    chompMinus (c :: r) = c :: r := by
  unfold chompMinus
  dsimp only
  rw [if_neg hc]

theorem numInt_cons_none {c : Char} {r : Txt} (h0 : ¬ c = '0') (hd : ¬ c.isDigit = true) :
    numInt (c :: r) = none := by
  unfold numInt
  dsimp only
  rw [if_neg h0, if_neg hd]

theorem validNum_head {lex : Txt} (h : validNum lex = true) :
    ∃ c r, lex = c :: r ∧ (c = '-' ∨ c.isDigit = true) := by
  cases lex with
  | nil => exact absurd h (by decide)
  | cons c r =>
    refine ⟨c, r, rfl, ?_⟩
    by_cases hc : c = '-'
    · exact Or.inl hc
    refine Or.inr ?_
    by_cases hd : c.isDigit
    · exact hd
    exfalso
    unfold validNum at h
    rw [chompMinus_cons_ne hc] at h
    by_cases h0 : c = '0'
    · subst h0; exact absurd hd (by decide)
    · rw [numInt_cons_none h0 hd] at h
      exact absurd h (by decide)

theorem parseNum_roundtrip {lex rest : Txt} (hv : validNum lex = true)
    (hall : lex.all isNumChar = true) (hrest : headNumOk rest) :
    parseNum (lex ++ rest) = some (.jnum lex, rest) := by
  obtain ⟨ht, hdrop⟩ := takeWhile_append_all hall hrest
  unfold parseNum
  rw [ht, hdrop, if_pos hv]

theorem headNumOk_cons {c : Char} (hc : isNumChar c = false) (r : Txt) : headNumOk (c :: r) := by
  intro d hd
  cases hd
  exact hc

theorem headNumOk_nil : headNumOk [] := by
  intro d hd
  simp at hd

/-- The serialization of a well-formed value is non-empty and starts with
a character that is not JSON whitespace and not a close bracket. -/
theorem dumpVal_head {v : JVal} (hwf : wfV v = true) :
    ∃ c r, dumpVal v = c :: r ∧ isJsonWs c = false ∧ ¬ c = ']' := by
  cases v with
  | jnull => exact ⟨'n', _, rfl, by decide, by decide⟩
  | jbool b =>
    cases b with
    | true => exact ⟨'t', _, rfl, by decide, by decide⟩
    | false => exact ⟨'f', _, rfl, by decide, by decide⟩
  | jnum lex =>
    unfold wfV at hwf
    simp only [Bool.and_eq_true] at hwf
    obtain ⟨c, r, rfl, hc⟩ := validNum_head hwf.1
    obtain ⟨hws, _, _, _, _, _, _, _, hbr⟩ := numStart_dispatch hc
    exact ⟨c, r, rfl, hws, hbr⟩
  | jstr s => exact ⟨'"', _, rfl, by decide, by decide⟩
  | jarr xs => exact ⟨'[', _, rfl, by decide, by decide⟩
  | jobj kvs => exact ⟨'{', _, rfl, by decide, by decide⟩

/-! ## Serialization round trip, part 3: the main induction -/

theorem jsizeV_pos (v : JVal) : 1 ≤ jsizeV v := by
  cases v <;> simp [jsizeV]

theorem dumpArr_cons_eq (v : JVal) (tl : JArr) :
    ∃ rr, dumpArr (.acons v tl) = dumpVal v ++ rr := by
  cases tl with
  | anil => exact ⟨[], by simp [dumpArr]⟩
  | acons v2 tl2 => exact ⟨',' :: dumpArr (.acons v2 tl2), by simp [dumpArr]⟩

theorem dumpObj_cons_head (k : Txt) (v : JVal) (tl : JObj) :
    ∃ rr, dumpObj (.ocons k v tl) = '"' :: rr := by
  cases tl with
  | onil => exact ⟨escStr k ++ '"' :: ':' :: dumpVal v, by simp [dumpObj, dumpStr]⟩
  | ocons k2 v2 tl2 =>
    exact ⟨escStr k ++ '"' :: ':' :: (dumpVal v ++ ',' :: dumpObj (.ocons k2 v2 tl2)),
      by simp [dumpObj, dumpStr]⟩


theorem parse_dump_roundtrip : ∀ f : Nat,
    (∀ (v : JVal) (rest : Txt), wfV v = true → jsizeV v ≤ f → headNumOk rest →
      parseVal f (dumpVal v ++ rest) = some (v, rest)) ∧
    (∀ (v : JVal) (tl : JArr) (rest : Txt), wfA (.acons v tl) = true →
      jsizeA (.acons v tl) ≤ f →
      parseElems f (dumpArr (.acons v tl) ++ ']' :: rest) = some (.acons v tl, rest)) ∧
    (∀ (k : Txt) (v : JVal) (tl : JObj) (rest : Txt), wfO (.ocons k v tl) = true →
      jsizeO (.ocons k v tl) ≤ f →
      parseMembers f (dumpObj (.ocons k v tl) ++ '}' :: rest) = some (.ocons k v tl, rest)) := by
  intro f
  induction f with
  | zero =>
    refine ⟨fun v rest _ hsz _ => absurd hsz ?_, fun v tl rest _ hsz => absurd hsz ?_,
      fun k v tl rest _ hsz => absurd hsz ?_⟩
    · have := jsizeV_pos v; omega
    · simp only [jsizeA]; have := jsizeV_pos v; omega
    · simp only [jsizeO]; have := jsizeV_pos v; omega
  | succ f ih =>
    obtain ⟨ihP, ihQ, ihR⟩ := ih
    refine ⟨?_, ?_, ?_⟩
    · -- one value
      intro v rest hwf hsz hrest
      cases v with
      | jnull =>
        show parseVal (f+1) ('n' :: 'u' :: 'l' :: 'l' :: rest) = some (.jnull, rest)
        rw [parseVal.eq_def]
        dsimp only
        rw [skipJWs_cons_of_not_ws (by decide)]
        simp
      | jbool b =>
        cases b with
        | true =>
          show parseVal (f+1) ('t' :: 'r' :: 'u' :: 'e' :: rest) = some (.jbool true, rest)
          rw [parseVal.eq_def]
          dsimp only
          rw [skipJWs_cons_of_not_ws (by decide)]
          simp
        | false =>
          show parseVal (f+1) ('f' :: 'a' :: 'l' :: 's' :: 'e' :: rest) = some (.jbool false, rest)
          rw [parseVal.eq_def]
          dsimp only
          rw [skipJWs_cons_of_not_ws (by decide)]
          simp
      | jnum lex =>
        unfold wfV at hwf
        simp only [Bool.and_eq_true] at hwf
        obtain ⟨c, r, hlex, hc⟩ := validNum_head hwf.1
        obtain ⟨hws, hn, ht', hf', hq, hb, hbrace, hguard, _⟩ := numStart_dispatch hc
        show parseVal (f+1) (lex ++ rest) = some (.jnum lex, rest)
        rw [parseVal.eq_def, hlex]
        simp only [List.cons_append]
        rw [skipJWs_cons_of_not_ws hws]
        dsimp only
        rw [if_neg hn, if_neg ht', if_neg hf', if_neg hq, if_neg hb, if_neg hbrace,
          if_pos hguard, ← List.cons_append, ← hlex]
        exact parseNum_roundtrip hwf.1 hwf.2 hrest
      | jstr s =>
        have hd : dumpVal (.jstr s) ++ rest = '"' :: (escStr s ++ '"' :: rest) := by
          show ('"' :: (escStr s ++ ['"'])) ++ rest = _
          simp
        rw [hd, parseVal.eq_def]
        dsimp only
        rw [skipJWs_cons_of_not_ws (by decide)]
        dsimp only
        rw [if_neg (by decide : ¬ ('"' : Char) = 'n'), if_neg (by decide : ¬ ('"' : Char) = 't'),
          if_neg (by decide : ¬ ('"' : Char) = 'f'), if_pos rfl, parseStrBody_escStr]
      | jarr xs =>
        cases xs with
        | anil =>
          show parseVal (f+1) ('[' :: ']' :: rest) = some (.jarr .anil, rest)
          rw [parseVal.eq_def]
          dsimp only
          rw [skipJWs_cons_of_not_ws (by decide)]
          dsimp only
          rw [if_neg (by decide : ¬ ('[' : Char) = 'n'), if_neg (by decide : ¬ ('[' : Char) = 't'),
            if_neg (by decide : ¬ ('[' : Char) = 'f'), if_neg (by decide : ¬ ('[' : Char) = '"'),
            if_pos rfl, skipJWs_cons_of_not_ws (by decide)]
          dsimp only
          rw [if_pos rfl]
        | acons v tl =>
          unfold wfV at hwf
          have hszA : jsizeA (.acons v tl) ≤ f := by
            simp only [jsizeV] at hsz; omega
          have harr := ihQ v tl rest hwf hszA
          have hwv : wfV v = true := by
            unfold wfA at hwf; simp only [Bool.and_eq_true] at hwf; exact hwf.1
          have hd : dumpVal (.jarr (.acons v tl)) ++ rest =
              '[' :: (dumpArr (.acons v tl) ++ ']' :: rest) := by
            show ('[' :: (dumpArr (.acons v tl) ++ [']'])) ++ rest = _
            simp
          obtain ⟨c1, r1, hdump, hc1ws, hc1br⟩ := dumpVal_head hwv
          obtain ⟨rr, hrr⟩ := dumpArr_cons_eq v tl
          have hXc : dumpArr (.acons v tl) ++ ']' :: rest =
              c1 :: (r1 ++ (rr ++ ']' :: rest)) := by
            rw [hrr, hdump]
            simp
          rw [hd, parseVal.eq_def]
          dsimp only
          rw [skipJWs_cons_of_not_ws (by decide)]
          dsimp only
          rw [if_neg (by decide : ¬ ('[' : Char) = 'n'), if_neg (by decide : ¬ ('[' : Char) = 't'),
            if_neg (by decide : ¬ ('[' : Char) = 'f'), if_neg (by decide : ¬ ('[' : Char) = '"'),
            if_pos rfl, hXc, skipJWs_cons_of_not_ws hc1ws]
          dsimp only
          rw [if_neg hc1br, ← hXc, harr]
      | jobj kvs =>
        cases kvs with
        | onil =>
          show parseVal (f+1) ('{' :: '}' :: rest) = some (.jobj .onil, rest)
          rw [parseVal.eq_def]
          dsimp only
          rw [skipJWs_cons_of_not_ws (by decide)]
          dsimp only
          rw [if_neg (by decide : ¬ ('{' : Char) = 'n'), if_neg (by decide : ¬ ('{' : Char) = 't'),
            if_neg (by decide : ¬ ('{' : Char) = 'f'), if_neg (by decide : ¬ ('{' : Char) = '"'),
            if_neg (by decide : ¬ ('{' : Char) = '['), if_pos rfl,
            skipJWs_cons_of_not_ws (by decide)]
          dsimp only
          rw [if_pos rfl]
        | ocons k v tl =>
          unfold wfV at hwf
          have hszO : jsizeO (.ocons k v tl) ≤ f := by
            simp only [jsizeV] at hsz; omega
          have hobj := ihR k v tl rest hwf hszO
          have hd : dumpVal (.jobj (.ocons k v tl)) ++ rest =
              '{' :: (dumpObj (.ocons k v tl) ++ '}' :: rest) := by
            show ('{' :: (dumpObj (.ocons k v tl) ++ ['}'])) ++ rest = _
            simp
          obtain ⟨rr, hrr⟩ := dumpObj_cons_head k v tl
          have hXc : dumpObj (.ocons k v tl) ++ '}' :: rest = '"' :: (rr ++ '}' :: rest) := by
            rw [hrr]
            simp
          rw [hd, parseVal.eq_def]
          dsimp only
          rw [skipJWs_cons_of_not_ws (by decide)]
          dsimp only
          rw [if_neg (by decide : ¬ ('{' : Char) = 'n'), if_neg (by decide : ¬ ('{' : Char) = 't'),
            if_neg (by decide : ¬ ('{' : Char) = 'f'), if_neg (by decide : ¬ ('{' : Char) = '"'),
            if_neg (by decide : ¬ ('{' : Char) = '['), if_pos rfl, hXc,
            skipJWs_cons_of_not_ws (by decide)]
          dsimp only
          rw [if_neg (by decide : ¬ ('"' : Char) = '}'), ← hXc, hobj]
    · -- array elements
      intro v tl rest hwf hsz
      have hwv : wfV v = true := by
        unfold wfA at hwf; simp only [Bool.and_eq_true] at hwf; exact hwf.1
      have hwtl : wfA tl = true := by
        unfold wfA at hwf; simp only [Bool.and_eq_true] at hwf; exact hwf.2
      rw [parseElems.eq_def]
      dsimp only
      cases tl with
      | anil =>
        have hdA : dumpArr (.acons v .anil) ++ ']' :: rest = dumpVal v ++ ']' :: rest := by
          simp [dumpArr]
        have hszV : jsizeV v ≤ f := by
          simp only [jsizeA] at hsz; omega
        rw [hdA, ihP v (']' :: rest) hwv hszV (headNumOk_cons (by decide) _)]
        dsimp only
        rw [skipJWs_cons_of_not_ws (by decide)]
        dsimp only
        rw [if_neg (by decide : ¬ (']' : Char) = ','), if_pos rfl]
      | acons v2 tl2 =>
        have hwv2 : wfV v2 = true := by
          unfold wfA at hwtl; simp only [Bool.and_eq_true] at hwtl; exact hwtl.1
        have hszV : jsizeV v ≤ f := by
          simp only [jsizeA] at hsz
          have := jsizeV_pos v2
          omega
        have hszA2 : jsizeA (.acons v2 tl2) ≤ f := by
          simp only [jsizeA] at hsz ⊢
          have := jsizeV_pos v
          omega
        have hdA : dumpArr (.acons v (.acons v2 tl2)) ++ ']' :: rest =
            dumpVal v ++ ',' :: (dumpArr (.acons v2 tl2) ++ ']' :: rest) := by
          show (dumpVal v ++ ',' :: dumpArr (.acons v2 tl2)) ++ ']' :: rest = _
          simp
        obtain ⟨c1, r1, hdump, hc1ws, _⟩ := dumpVal_head hwv2
        obtain ⟨rr, hrr⟩ := dumpArr_cons_eq v2 tl2
        have hXc : dumpArr (.acons v2 tl2) ++ ']' :: rest =
            c1 :: (r1 ++ (rr ++ ']' :: rest)) := by
          rw [hrr, hdump]
          simp
        rw [hdA, ihP v _ hwv hszV (headNumOk_cons (by decide) _)]
        dsimp only
        rw [skipJWs_cons_of_not_ws (by decide)]
        dsimp only
        rw [if_pos rfl, hXc, skipJWs_cons_of_not_ws hc1ws, ← hXc,
          ihQ v2 tl2 rest hwtl hszA2]
    · -- object members
      intro k v tl rest hwf hsz
      have hwv : wfV v = true := by
        unfold wfO at hwf; simp only [Bool.and_eq_true] at hwf; exact hwf.1
      have hwtl : wfO tl = true := by
        unfold wfO at hwf; simp only [Bool.and_eq_true] at hwf; exact hwf.2
      rw [parseMembers.eq_def]
      dsimp only
      cases tl with
      | onil =>
        have hszV : jsizeV v ≤ f := by
          simp only [jsizeO] at hsz; omega
        have hd : dumpObj (.ocons k v .onil) ++ '}' :: rest =
            '"' :: (escStr k ++ '"' :: ':' :: (dumpVal v ++ '}' :: rest)) := by
          show (dumpStr k ++ ':' :: dumpVal v) ++ '}' :: rest = _
          simp [dumpStr]
        obtain ⟨c1, r1, hdump, hc1ws, _⟩ := dumpVal_head hwv
        have hform : skipJWs (dumpVal v ++ '}' :: rest) = dumpVal v ++ '}' :: rest := by
          rw [hdump]
          simp only [List.cons_append]
          exact skipJWs_cons_of_not_ws hc1ws
        rw [hd]
        dsimp only
        rw [if_pos rfl, parseStrBody_escStr]
        dsimp only
        rw [skipJWs_cons_of_not_ws (by decide)]
        dsimp only
        rw [if_pos rfl, hform, ihP v ('}' :: rest) hwv hszV (headNumOk_cons (by decide) _)]
        dsimp only
        rw [skipJWs_cons_of_not_ws (by decide)]
        dsimp only
        rw [if_neg (by decide : ¬ ('}' : Char) = ','), if_pos rfl]
      | ocons k2 v2 tl2 =>
        have hwv2 : wfV v2 = true := by
          unfold wfO at hwtl; simp only [Bool.and_eq_true] at hwtl; exact hwtl.1
        have hszV : jsizeV v ≤ f := by
          simp only [jsizeO] at hsz
          have := jsizeV_pos v2
          omega
        have hszO2 : jsizeO (.ocons k2 v2 tl2) ≤ f := by
          simp only [jsizeO] at hsz ⊢
          have := jsizeV_pos v
          omega
        have hd : dumpObj (.ocons k v (.ocons k2 v2 tl2)) ++ '}' :: rest =
            '"' :: (escStr k ++ '"' :: ':' ::
              (dumpVal v ++ ',' :: (dumpObj (.ocons k2 v2 tl2) ++ '}' :: rest))) := by
          show (dumpStr k ++ ':' :: dumpVal v ++ ',' :: dumpObj (.ocons k2 v2 tl2)) ++
            '}' :: rest = _
          simp [dumpStr]
        obtain ⟨rr, hrr⟩ := dumpObj_cons_head k2 v2 tl2
        have hXc : dumpObj (.ocons k2 v2 tl2) ++ '}' :: rest = '"' :: (rr ++ '}' :: rest) := by
          rw [hrr]
          simp
        obtain ⟨c1, r1, hdump, hc1ws, _⟩ := dumpVal_head hwv
        have hform : skipJWs (dumpVal v ++ ',' :: (dumpObj (.ocons k2 v2 tl2) ++ '}' :: rest)) =
            dumpVal v ++ ',' :: (dumpObj (.ocons k2 v2 tl2) ++ '}' :: rest) := by
          rw [hdump]
          simp only [List.cons_append]
          exact skipJWs_cons_of_not_ws hc1ws
        rw [hd]
        dsimp only
        rw [if_pos rfl, parseStrBody_escStr]
        dsimp only
        rw [skipJWs_cons_of_not_ws (by decide)]
        dsimp only
        rw [if_pos rfl, hform, ihP v _ hwv hszV (headNumOk_cons (by decide) _)]
        dsimp only
        rw [skipJWs_cons_of_not_ws (by decide)]
        dsimp only
        rw [if_pos rfl, hXc, skipJWs_cons_of_not_ws (by decide), ← hXc,
          ihR k2 v2 tl2 rest hwtl hszO2]

/-! ## Serialization round trip, part 4: parser outputs are well formed -/

theorem takeWhile_all (p : Char → Bool) : ∀ l : Txt, (l.takeWhile p).all p = true := by
  intro l
  induction l with
  | nil => rfl
  | cons c r ih =>
    rw [List.takeWhile_cons]
    split
    · rename_i hc
      simp [hc, ih]
    · rfl

theorem parse_wf : ∀ f : Nat,
    (∀ s v r, parseVal f s = some (v, r) → wfV v = true) ∧
    (∀ s xs r, parseElems f s = some (xs, r) → wfA xs = true) ∧
    (∀ s kvs r, parseMembers f s = some (kvs, r) → wfO kvs = true) := by
  intro f
  induction f with
  | zero =>
    refine ⟨fun s v r h => ?_, fun s xs r h => ?_, fun s kvs r h => ?_⟩ <;>
      simp [parseVal, parseElems, parseMembers] at h
  | succ f ih =>
    obtain ⟨ihP, ihQ, ihR⟩ := ih
    refine ⟨?_, ?_, ?_⟩
    · intro s v r h
      rw [parseVal.eq_def] at h
      dsimp only at h
      split at h
      · exact absurd h (by simp)
      · split at h
        · -- null
          split at h
          · cases h; rfl
          · exact absurd h (by simp)
        split at h
        · -- true
          split at h
          · cases h; rfl
          · exact absurd h (by simp)
        split at h
        · -- false
          split at h
          · cases h; rfl
          · exact absurd h (by simp)
        split at h
        · -- string
          split at h
          · cases h; rfl
          · exact absurd h (by simp)
        split at h
        · -- array
          split at h
          · exact absurd h (by simp)
          · split at h
            · cases h; rfl
            · split at h
              · rename_i heq
                cases h
                exact ihQ _ _ _ heq
              · exact absurd h (by simp)
        split at h
        · -- object
          split at h
          · exact absurd h (by simp)
          · split at h
            · cases h; rfl
            · split at h
              · rename_i heq
                cases h
                exact ihR _ _ _ heq
              · exact absurd h (by simp)
        split at h
        · -- number
          unfold parseNum at h
          split at h
          · rename_i hvn
            cases h
            unfold wfV
            simp only [Bool.and_eq_true]
            exact ⟨hvn, takeWhile_all _ _⟩
          · exact absurd h (by simp)
        · exact absurd h (by simp)
    · intro s xs r h
      rw [parseElems.eq_def] at h
      dsimp only at h
      cases heqV : parseVal f s with
      | none => rw [heqV] at h; exact absurd h (by simp)
      | some p =>
        obtain ⟨v1, r1⟩ := p
        rw [heqV] at h
        dsimp only at h
        cases hsk : skipJWs r1 with
        | nil => rw [hsk] at h; exact absurd h (by simp)
        | cons c r2 =>
          rw [hsk] at h
          dsimp only at h
          split at h
          · split at h
            · rename_i heqE
              cases h
              unfold wfA
              simp only [Bool.and_eq_true]
              exact ⟨ihP _ _ _ heqV, ihQ _ _ _ heqE⟩
            · exact absurd h (by simp)
          split at h
          · cases h
            unfold wfA
            simp only [Bool.and_eq_true]
            exact ⟨ihP _ _ _ heqV, rfl⟩
          · exact absurd h (by simp)
    · intro s kvs r h
      rw [parseMembers.eq_def] at h
      dsimp only at h
      cases s with
      | nil => exact absurd h (by simp)
      | cons c0 r0 =>
        dsimp only at h
        split at h
        · cases heqS : parseStrBody r0 with
          | none => rw [heqS] at h; exact absurd h (by simp)
          | some p =>
            obtain ⟨k1, r1⟩ := p
            rw [heqS] at h
            dsimp only at h
            cases hsk1 : skipJWs r1 with
            | nil => rw [hsk1] at h; exact absurd h (by simp)
            | cons c1 r2 =>
              rw [hsk1] at h
              dsimp only at h
              split at h
              · cases heqV : parseVal f (skipJWs r2) with
                | none => rw [heqV] at h; exact absurd h (by simp)
                | some p2 =>
                  obtain ⟨v1, r3⟩ := p2
                  rw [heqV] at h
                  dsimp only at h
                  cases hsk3 : skipJWs r3 with
                  | nil => rw [hsk3] at h; exact absurd h (by simp)
                  | cons c3 r4 =>
                    rw [hsk3] at h
                    dsimp only at h
                    split at h
                    · split at h
                      · rename_i heqM
                        cases h
                        unfold wfO
                        simp only [Bool.and_eq_true]
                        exact ⟨ihP _ _ _ heqV, ihR _ _ _ heqM⟩
                      · exact absurd h (by simp)
                    split at h
                    · cases h
                      unfold wfO
                      simp only [Bool.and_eq_true]
                      exact ⟨ihP _ _ _ heqV, rfl⟩
                    · exact absurd h (by simp)
              · exact absurd h (by simp)
        · exact absurd h (by simp)

theorem olookup_wf_aux : ∀ (n : Nat) {kvs : JObj} {key : Txt} {w : JVal},
    jsizeO kvs ≤ n → olookup kvs key = some w → wfO kvs = true → wfV w = true := by
  intro n
  induction n with
  | zero =>
    intro kvs key w hsz h _
    cases kvs with
    | onil => simp [olookup] at h
    | ocons k v tl =>
      exfalso
      have := jsizeV_pos v
      simp only [jsizeO] at hsz
      omega
  | succ n ih =>
    intro kvs key w hsz h hwf
    cases kvs with
    | onil => simp [olookup] at h
    | ocons k v tl =>
      unfold wfO at hwf
      simp only [Bool.and_eq_true] at hwf
      rw [olookup.eq_def] at h
      dsimp only at h
      split at h
      · rename_i heq
        cases h
        have hsz2 : jsizeO tl ≤ n := by
          have := jsizeV_pos v
          simp only [jsizeO] at hsz
          omega
        exact ih hsz2 heq hwf.2
      · split at h
        · cases h; exact hwf.1
        · exact absurd h (by simp)

theorem olookup_wf {kvs : JObj} {key : Txt} {w : JVal}
    (h : olookup kvs key = some w) (hwf : wfO kvs = true) : wfV w = true :=
  olookup_wf_aux (jsizeO kvs) (le_refl _) h hwf

theorem objLookup_wf {v : JVal} {key : Txt} {w : JVal}
    (h : objLookup v key = some w) (hwf : wfV v = true) : wfV w = true := by
  cases v with
  | jobj kvs => exact olookup_wf h hwf
  | jnull => simp [objLookup] at h
  | jbool b => simp [objLookup] at h
  | jnum l => simp [objLookup] at h
  | jstr s => simp [objLookup] at h
  | jarr xs => simp [objLookup] at h

theorem parseJson_wf {s : Txt} {v : JVal} (h : parseJson s = some v) : wfV v = true := by
  unfold parseJson at h
  cases hp : parseVal (s.length + 1) s with
  | none => rw [hp] at h; exact absurd h (by simp)
  | some p =>
    obtain ⟨v1, r1⟩ := p
    rw [hp] at h
    dsimp only at h
    by_cases hr : skipJWs r1 = []
    · rw [if_pos hr] at h
      cases h
      exact (parse_wf _).1 _ _ _ hp
    · rw [if_neg hr] at h
      exact absurd h (by simp)

theorem jsize_le_dump : ∀ n : Nat,
    (∀ v, jsizeV v ≤ n → wfV v = true → jsizeV v ≤ (dumpVal v).length) ∧
    (∀ xs, jsizeA xs ≤ n → wfA xs = true → jsizeA xs ≤ (dumpArr xs).length + 1) ∧
    (∀ kvs, jsizeO kvs ≤ n → wfO kvs = true → jsizeO kvs ≤ (dumpObj kvs).length + 1) := by
  intro n
  induction n using Nat.strong_induction_on with
  | _ n ih =>
    refine ⟨?_, ?_, ?_⟩
    · intro v hn hwf
      cases v with
      | jnull => decide
      | jbool b => cases b <;> decide
      | jnum lex =>
        unfold wfV at hwf
        simp only [Bool.and_eq_true] at hwf
        obtain ⟨c, r, rfl, _⟩ := validNum_head hwf.1
        show jsizeV (.jnum (c :: r)) ≤ (c :: r).length
        simp [jsizeV]
      | jstr s =>
        show jsizeV (.jstr s) ≤ (dumpStr s).length
        simp [jsizeV, dumpStr]
      | jarr xs =>
        unfold wfV at hwf
        have hlt : jsizeA xs < n := by
          simp only [jsizeV] at hn; omega
        have ha := (ih (jsizeA xs) hlt).2.1 xs (le_refl _) hwf
        show jsizeV (.jarr xs) ≤ ('[' :: dumpArr xs ++ [']']).length
        simp only [jsizeV, List.length_cons, List.length_append, List.length_cons,
          List.length_nil]
        omega
      | jobj kvs =>
        unfold wfV at hwf
        have hlt : jsizeO kvs < n := by
          simp only [jsizeV] at hn; omega
        have ho := (ih (jsizeO kvs) hlt).2.2 kvs (le_refl _) hwf
        show jsizeV (.jobj kvs) ≤ ('{' :: dumpObj kvs ++ ['}']).length
        simp only [jsizeV, List.length_cons, List.length_append, List.length_nil]
        omega
    · intro xs hn hwf
      cases xs with
      | anil => simp [jsizeA, dumpArr]
      | acons v tl =>
        unfold wfA at hwf
        simp only [Bool.and_eq_true] at hwf
        have hvpos := jsizeV_pos v
        have hltV : jsizeV v < n := by
          simp only [jsizeA] at hn; omega
        have hv := (ih (jsizeV v) hltV).1 v (le_refl _) hwf.1
        cases tl with
        | anil =>
          show jsizeA (.acons v .anil) ≤ (dumpVal v).length + 1
          simp only [jsizeA]
          omega
        | acons v2 tl2 =>
          have hltA : jsizeA (.acons v2 tl2) < n := by
            simp only [jsizeA] at hn ⊢; omega
          have ha := (ih _ hltA).2.1 (.acons v2 tl2) (le_refl _) hwf.2
          show jsizeA (.acons v (.acons v2 tl2)) ≤
            (dumpVal v ++ ',' :: dumpArr (.acons v2 tl2)).length + 1
          simp only [jsizeA, List.length_append, List.length_cons] at ha ⊢
          omega
    · intro kvs hn hwf
      cases kvs with
      | onil => simp [jsizeO, dumpObj]
      | ocons k v tl =>
        unfold wfO at hwf
        simp only [Bool.and_eq_true] at hwf
        have hvpos := jsizeV_pos v
        have hltV : jsizeV v < n := by
          simp only [jsizeO] at hn; omega
        have hv := (ih (jsizeV v) hltV).1 v (le_refl _) hwf.1
        cases tl with
        | onil =>
          show jsizeO (.ocons k v .onil) ≤ (dumpStr k ++ ':' :: dumpVal v).length + 1
          simp only [jsizeO, dumpStr, List.length_append, List.length_cons]
          omega
        | ocons k2 v2 tl2 =>
          have hltO : jsizeO (.ocons k2 v2 tl2) < n := by
            simp only [jsizeO] at hn ⊢; omega
          have ho := (ih _ hltO).2.2 (.ocons k2 v2 tl2) (le_refl _) hwf.2
          show jsizeO (.ocons k v (.ocons k2 v2 tl2)) ≤
            (dumpStr k ++ ':' :: dumpVal v ++ ',' :: dumpObj (.ocons k2 v2 tl2)).length + 1
          simp only [jsizeO, dumpStr, List.length_append, List.length_cons] at ho ⊢
          omega

/-- The compact serialization of any well-formed value parses back
successfully (to the value itself): serialized arguments are always
valid JSON text. -/
theorem parseJson_dump {v : JVal} (hwf : wfV v = true) : parseJson (dumpVal v) = some v := by
  have hsz : jsizeV v ≤ (dumpVal v).length := (jsize_le_dump (jsizeV v)).1 v (le_refl _) hwf
  have h := (parse_dump_roundtrip ((dumpVal v).length + 1)).1 v [] hwf (by omega) headNumOk_nil
  rw [List.append_nil] at h
  unfold parseJson
  rw [h]
  rfl

/-! ## The amended C3 invariants -/

theorem toJObj_wf : ∀ l : List (Txt × Txt), wfO (toJObj l) = true := by
  intro l
  induction l with
  | nil => rfl
  | cons p tl ih =>
    obtain ⟨k, v⟩ := p
    simp [toJObj, wfO, wfV, ih]

theorem regionCall_name {inner nm : Txt} {kvs : List (Txt × Txt)}
    (h : regionCall inner = some (nm, kvs)) : nm ≠ [] := by
  unfold regionCall at h
  cases h1 : findFrom inner funcTag 0 with
  | none => rw [h1] at h; exact absurd h (by simp)
  | some fs =>
    rw [h1] at h
    dsimp only at h
    cases h2 : findFrom inner gtTag (fs + 10) with
    | none => rw [h2] at h; exact absurd h (by simp)
    | some ne =>
      rw [h2] at h
      dsimp only at h
      split at h
      · exact absurd h (by simp)
      · rename_i h3
        cases h4 : findFrom inner closeFunc 0 with
        | none => rw [h4] at h; exact absurd h (by simp)
        | some fe =>
          rw [h4] at h
          dsimp only at h
          cases h
          exact h3

theorem jsonCandidate_props {s nm args : Txt} (h : jsonCandidate s = some (nm, args)) :
    nm ≠ [] ∧ ((parseJson args).isSome = true ∨
      ∃ v, parseJson s = some v ∧ objLookup v argsKey = some (.jstr args)) := by
  unfold jsonCandidate at h
  cases hp : parseJson s with
  | none => rw [hp] at h; exact absurd h (by simp)
  | some v =>
    rw [hp] at h
    dsimp only at h
    split at h
    · rename_i nm0 hname
      split at h
      · exact absurd h (by simp)
      · rename_i hnm0
        cases h
        refine ⟨hnm0, ?_⟩
        cases hargs : objLookup v argsKey with
        | none => exact Or.inl (by decide)
        | some w =>
          cases w with
          | jstr a => exact Or.inr ⟨v, rfl, hargs⟩
          | jnull =>
            refine Or.inl ?_
            dsimp only
            rw [parseJson_dump (objLookup_wf hargs (parseJson_wf hp))]
            rfl
          | jbool b =>
            refine Or.inl ?_
            dsimp only
            rw [parseJson_dump (objLookup_wf hargs (parseJson_wf hp))]
            rfl
          | jnum l =>
            refine Or.inl ?_
            dsimp only
            rw [parseJson_dump (objLookup_wf hargs (parseJson_wf hp))]
            rfl
          | jarr xs =>
            refine Or.inl ?_
            dsimp only
            rw [parseJson_dump (objLookup_wf hargs (parseJson_wf hp))]
            rfl
          | jobj kvs =>
            refine Or.inl ?_
            dsimp only
            rw [parseJson_dump (objLookup_wf hargs (parseJson_wf hp))]
            rfl
    · exact absurd h (by simp)

theorem jsonLoop_calls (t : Txt) : ∀ (fuel pos ctr : Nat) (tc : ToolCall),
    tc ∈ jsonLoop t fuel pos ctr →
    tc.fname ≠ [] ∧ ((parseJson tc.args).isSome = true ∨ isPassthroughArg t tc.args) := by
  intro fuel
  induction fuel with
  | zero => intro pos ctr tc h; simp [jsonLoop] at h
  | succ f ih =>
    intro pos ctr tc h
    cases hm : nextJsonMatch t pos with
    | none => simp [jsonLoop, hm] at h
    | some pe =>
      obtain ⟨p, q, e⟩ := pe
      cases hc : jsonCandidate (trimBy isWs4 (captureOf t q e)) with
      | none =>
        simp only [jsonLoop, hm, hc] at h
        exact ih _ _ _ h
      | some nmargs =>
        obtain ⟨nm, args⟩ := nmargs
        simp only [jsonLoop, hm, hc, List.mem_cons] at h
        rcases h with rfl | h
        · obtain ⟨h1, h2⟩ := jsonCandidate_props hc
          refine ⟨h1, ?_⟩
          rcases h2 with h2 | ⟨v, hv1, hv2⟩
          · exact Or.inl h2
          · exact Or.inr ⟨pos, v, ⟨p, q, e, hm, hv1⟩, hv2⟩
        · exact ih _ _ _ h

theorem xmlLoop_calls (t : Txt) : ∀ (fuel pos ctr : Nat) (tc : ToolCall),
    tc ∈ (xmlLoop t fuel pos ctr).1 →
    tc.fname ≠ [] ∧ (parseJson tc.args).isSome = true := by
  intro fuel
  induction fuel with
  | zero => intro pos ctr tc h; simp [xmlLoop] at h
  | succ f ih =>
    intro pos ctr tc h
    cases hopen : findFrom t openTag pos with
    | none => simp [xmlLoop, hopen] at h
    | some s =>
      cases hclose : findFrom t closeTag s with
      | none =>
        simp only [xmlLoop, hopen, hclose] at h
        exact ih _ _ _ h
      | some e =>
        cases hr : regionCall (cppSubstr t (s + 11) ((e : Int) - (s + 11))) with
        | none =>
          simp only [xmlLoop, hopen, hclose, hr] at h
          exact ih _ _ _ h
        | some nmkvs =>
          obtain ⟨nm, kvs⟩ := nmkvs
          simp only [xmlLoop, hopen, hclose, hr, List.mem_cons] at h
          rcases h with rfl | h
          · refine ⟨regionCall_name hr, ?_⟩
            show (parseJson (dumpVal (.jobj (toJObj kvs)))).isSome = true
            have hwf : wfV (.jobj (toJObj kvs)) = true := by
              unfold wfV
              exact toJObj_wf kvs
            rw [parseJson_dump hwf]
            rfl
          · exact ih _ _ _ h

/-- C3 amended: every emitted ToolCall has a non-empty function name, and
its arguments string either parses as valid JSON (always the case for the
XML extractor, whose arguments are serialized objects, and for the JSON
extractor when the arguments field was absent or structured) or is the
verbatim pass-through of a string-valued arguments field of the captured
candidate. -/
theorem C3_amended_invariants (t : Txt) (c : Nat) (tc : ToolCall)
    (h : tc ∈ (parse_tool_calls t c).1) :
    tc.fname ≠ [] ∧ ((parseJson tc.args).isSome = true ∨ isPassthroughArg t tc.args) := by
  have hEq : parse_tool_calls t c =
      (if (jsonPhase t).isEmpty then parse_universal_xml_tool_calls t c
       else (jsonPhase t, c)) := rfl
  rw [hEq] at h
  by_cases hj : (jsonPhase t).isEmpty
  · rw [if_pos hj] at h
    obtain ⟨h1, h2⟩ := xmlLoop_calls t _ _ _ tc h
    exact ⟨h1, Or.inl h2⟩
  · rw [if_neg hj] at h
    exact jsonLoop_calls t _ _ _ tc h

/-- Witness for the amended C3: the single call extracted from the C1
input has a non-empty name and valid-JSON arguments. -/
theorem C3_amended_witness :
    (⟨txt ("qwen3_call_1"), txt ("function"), txt ("foo"), txt ("\x7b\"a\":1\x7d")⟩ :
        ToolCall).fname ≠ [] ∧
    ((parseJson (⟨txt ("qwen3_call_1"), txt ("function"), txt ("foo"),
        txt ("\x7b\"a\":1\x7d")⟩ : ToolCall).args).isSome = true ∨
      isPassthroughArg
        (txt ("<tool_call>\x7b\"name\":\"foo\",\"arguments\":\x7b\"a\":1\x7d\x7d</tool_call>"))
        (⟨txt ("qwen3_call_1"), txt ("function"), txt ("foo"),
          txt ("\x7b\"a\":1\x7d")⟩ : ToolCall).args) :=
  C3_amended_invariants
    (txt ("<tool_call>\x7b\"name\":\"foo\",\"arguments\":\x7b\"a\":1\x7d\x7d</tool_call>")) 0
    ⟨txt ("qwen3_call_1"), txt ("function"), txt ("foo"), txt ("\x7b\"a\":1\x7d")⟩
    (by decide)

end Qwen3
